import Mathlib

/-!
# Anagram-Solver: a shallow embedding of `src/main.c`

Strings are lists of bytes (`List Nat`, every byte in `1..255`, the terminating
NUL left implicit).  The two global tables `g_map` and `g_dict` are passed
explicitly.  Loops that the C code does not bound by construction (the probe
loops of the index, the recursion of the chain search and of the enumerator)
carry a fuel argument and return `none` when the fuel runs out.
-/

namespace AnagramSolver

/-! ## Configuration constants -/

/-- The constant `MAX_WORD_LEN`. -/
def MAX_WORD_LEN : Nat := 255

/-- The constant `MAX_DICT_SIZE`. -/
def MAX_DICT_SIZE : Nat := 1000000

/-- The constant `HASH_TABLE_SIZE`. -/
def HASH_TABLE_SIZE : Nat := 1000003

/-- The constant `MAX_NEXT_STEPS`. -/
def MAX_NEXT_STEPS : Nat := 100

/-! ## Characters and strings -/

/-- The `int` a byte `b` (0..255) becomes when it is read through plain `char`.
Whether plain `char` is signed is implementation-defined in C; `signedChar = true`
is the x86-64 convention (bytes 128..255 read as -128..-1), `signedChar = false`
the unsigned one. -/
def char_val (signedChar : Bool) (b : Nat) : Int :=
  if signedChar && decide (128 ≤ b) then (b : Int) - 256 else (b : Int)

/-- The function `compare_chars`: `*(char*)a - *(char*)b`. -/
def compare_chars (signedChar : Bool) (a b : Nat) : Int :=
  char_val signedChar a - char_val signedChar b

/-- The library routine `qsort`, by insertion: an element goes before another when
the comparator's result is not positive.  The C standard fixes the result of
`qsort` only up to the order of elements that compare equal. -/
def qsort {α : Type} (compar : α → α → Int) (base : List α) : List α :=
  base.insertionSort (fun a b => compar a b ≤ 0)

/-- The function `canonicalize`: copy the word and sort its characters with
`compare_chars`. -/
def canonicalize (signedChar : Bool) (word : List Nat) : List Nat :=
  qsort (compare_chars signedChar) word

/-- The library routine `strcmp` on NUL-free byte strings; bytes compare as
`unsigned char`, a proper prefix is smaller.  Only the sign of the result is
specified by C, so the model returns -1, 0 or 1. -/
def strcmp : List Nat → List Nat → Int
  | [], [] => 0
  | [], _ :: _ => -1
  | _ :: _, [] => 1
  | a :: as, b :: bs => if a = b then strcmp as bs else if a < b then -1 else 1

/-- The value a plain `char` adds to an `unsigned long` (64 bits): a negative
`char` wraps around. -/
def char_to_ulong (signedChar : Bool) (b : Nat) : Nat :=
  if signedChar && decide (128 ≤ b) then b + (2 ^ 64 - 256) else b

/-- The function `hash_string` (DJB2) on a 64-bit `unsigned long`. -/
def hash_string (signedChar : Bool) (str : List Nat) : Nat :=
  str.foldl (fun hash c => (hash * 33 + char_to_ulong signedChar c) % 2 ^ 64) 5381

/-! ## Data model -/

/-- The struct `DictWord`.  `next_in_chain` is the whole array of
`MAX_NEXT_STEPS` cells; only its first `num_next_steps` cells are meaningful. -/
structure DictWord where
  word : List Nat
  canonical : List Nat
  id : Nat
  length : Nat
  max_chain_length : Nat
  num_next_steps : Nat
  next_in_chain : List Nat
  deriving DecidableEq, Repr

/-- The struct `AnagramGroup`, one slot of the index. -/
structure AnagramGroup where
  canonical_form : List Nat
  word_index : Nat
  group_size : Nat
  occupied : Bool
  deriving DecidableEq, Repr

/-- The array `g_map`, as a function from slot number to slot. -/
abbrev GMap := Nat → AnagramGroup

/-- The zero-initialised `g_map`. -/
def empty_map : GMap := fun _ => ⟨[], 0, 0, false⟩

/-- A zero-initialised `DictWord`, the content of every unused cell of `g_dict`. -/
def zero_word : DictWord := ⟨[], [], 0, 0, 0, 0, List.replicate MAX_NEXT_STEPS 0⟩

/-- The program state: the two global tables (`g_word_count` is
`g_dict.length`). -/
structure State where
  g_map : GMap
  g_dict : List DictWord

/-! ## The index -/

/-- The probe loop of `insert_group`: from slot `i`, the first slot that is not
occupied.  `none` when `fuel` slots were all occupied. -/
def insert_probe (g_map : GMap) : Nat → Nat → Option Nat
  | 0, _ => none
  | fuel + 1, i =>
    if (g_map i).occupied then insert_probe g_map fuel ((i + 1) % HASH_TABLE_SIZE)
    else some i

/-- The function `insert_group`.  `none` stands for the probe loop that never
ends on a table without a free slot. -/
def insert_group (signedChar : Bool) (g_map : GMap) (canonical : List Nat)
    (start_index size : Nat) : Option GMap :=
  match insert_probe g_map HASH_TABLE_SIZE (hash_string signedChar canonical % HASH_TABLE_SIZE) with
  | none => none
  | some i => some (fun j => if j = i then ⟨canonical, start_index, size, true⟩ else g_map j)

/-- The probe loop of `find_group`: `some (some g)` is the slot found,
`some none` the NULL result, `none` a loop that used up `fuel` probes. -/
def find_probe (g_map : GMap) (canonical : List Nat) : Nat → Nat → Option (Option AnagramGroup)
  | 0, _ => none
  | fuel + 1, i =>
    if (g_map i).occupied then
      if strcmp (g_map i).canonical_form canonical = 0 then some (some (g_map i))
      else find_probe g_map canonical fuel ((i + 1) % HASH_TABLE_SIZE)
    else some none

/-- The function `find_group`. -/
def find_group (signedChar : Bool) (g_map : GMap) (canonical : List Nat) :
    Option (Option AnagramGroup) :=
  find_probe g_map canonical HASH_TABLE_SIZE (hash_string signedChar canonical % HASH_TABLE_SIZE)

/-! ## Loading and preprocessing -/

/-- The clean-up of a line read by `fgets`: one trailing line feed (10) is
removed, then one trailing carriage return (13). -/
def strip_line (line : List Nat) : List Nat :=
  let l1 := if line.getLast? = some 10 then line.dropLast else line
  if l1.getLast? = some 13 then l1.dropLast else l1

/-- The entry the loader writes into `g_dict[word_counter]` for a cleaned line;
`num_next_steps` and `next_in_chain` keep the zeros of the global array. -/
def new_entry (signedChar : Bool) (word_counter : Nat) (w : List Nat) : DictWord :=
  { word := w, canonical := canonicalize signedChar w, id := word_counter, length := w.length,
    max_chain_length := 0, num_next_steps := 0,
    next_in_chain := List.replicate MAX_NEXT_STEPS 0 }

/-- The reading loop of `load_and_preprocess_dictionary`.  `lines` are the
successive results of `fgets`; `acc` is `g_dict[0..word_counter)`. -/
def read_words (signedChar : Bool) : List (List Nat) → List DictWord → List DictWord
  | [], acc => acc
  | line :: rest, acc =>
    if MAX_DICT_SIZE ≤ acc.length then acc
    else
      let w := strip_line line
      if w.length = 0 ∨ MAX_WORD_LEN < w.length then read_words signedChar rest acc
      else read_words signedChar rest (acc ++ [new_entry signedChar acc.length w])

/-- The inner `for` loop of the grouping scan: the number of leading entries
whose `canonical` compares equal to `current_canonical`. -/
def count_run (current_canonical : List Nat) : List DictWord → Nat
  | [] => 0
  | e :: rest =>
    if strcmp e.canonical current_canonical = 0 then count_run current_canonical rest + 1 else 0

/-- The `while` loop that populates the index from the sorted table. -/
def populate (signedChar : Bool) (g_dict : List DictWord) : Nat → Nat → GMap → Option GMap
  | 0, group_start_index, g_map => if group_start_index < g_dict.length then none else some g_map
  | fuel + 1, group_start_index, g_map =>
    if group_start_index < g_dict.length then
      let current_canonical := (g_dict.getD group_start_index zero_word).canonical
      let group_size := count_run current_canonical (g_dict.drop group_start_index)
      match insert_group signedChar g_map current_canonical group_start_index group_size with
      | none => none
      | some g_map1 => populate signedChar g_dict fuel (group_start_index + group_size) g_map1
    else some g_map

/-- The function `load_and_preprocess_dictionary` after the file was opened.
`some (some st)` is the result `true` with the tables `st`, `some none` the result
`false` (no valid word), `none` a run that does not end.  The table is sorted
with `strcmp` applied to the entries themselves, that is, to their first field
`word`. -/
def load_and_preprocess_dictionary (signedChar : Bool) (lines : List (List Nat)) :
    Option (Option State) :=
  let loaded := read_words signedChar lines []
  if loaded.length = 0 then some none
  else
    let g_dict := qsort (fun (a b : DictWord) => strcmp a.word b.word) loaded
    match populate signedChar g_dict g_dict.length 0 empty_map with
    | none => none
    | some g_map => some (some ⟨g_map, g_dict⟩)

/-! ## Chain search -/

/-- The candidate characters of the successor search, 33 to 126. -/
def candidate_chars : List Nat := List.range' 33 94

/-- The string in `current_canonical_copy` after the two indexed writes
`[current_len] = c` and `[current_len + 1] = 0` on the copy of `canonical`: a
write inside the string cuts it there, a write past its terminator is not seen.
The capacity of the buffer is not part of the string and is not checked here. -/
def write_candidate (canonical : List Nat) (current_len c : Nat) : List Nat :=
  if current_len ≤ canonical.length then canonical.take current_len ++ [c] else canonical

/-- The body of the inner loop of `find_longest_chain` after the recursive call
returned: the comparison of `current_chain` with `max_length` and the update of
the memo fields of `g_dict[word_id]`. -/
def update_best (word_id next_word_id current_chain max_length : Nat)
    (g_dict : List DictWord) : Nat × List DictWord :=
  let cw := g_dict.getD word_id zero_word
  if max_length < current_chain then
    (current_chain, g_dict.set word_id
      { cw with num_next_steps := 1, next_in_chain := cw.next_in_chain.set 0 next_word_id })
  else if current_chain = max_length then
    if cw.num_next_steps < MAX_NEXT_STEPS then
      (max_length, g_dict.set word_id
        { cw with num_next_steps := cw.num_next_steps + 1,
                  next_in_chain := cw.next_in_chain.set cw.num_next_steps next_word_id })
    else (max_length, g_dict)
  else (max_length, g_dict)

/-- The inner `for` loop of `find_longest_chain` over the words of one group;
`call` is the recursive call. -/
def group_loop (call : State → Nat → Option (Nat × State)) (word_id word_index : Nat) :
    List Nat → Nat × State → Option (Nat × State)
  | [], acc => some acc
  | i :: rest, (max_length, st) =>
    match call st (word_index + i) with
    | none => none
    | some (r, st1) =>
      let upd := update_best word_id (word_index + i) (1 + r) max_length st1.g_dict
      group_loop call word_id word_index rest (upd.1, ⟨st1.g_map, upd.2⟩)

/-- The outer `for` loop of `find_longest_chain` over the candidate characters. -/
def char_loop (signedChar : Bool) (call : State → Nat → Option (Nat × State))
    (word_id : Nat) (canonical : List Nat) (current_len : Nat) :
    List Nat → Nat × State → Option (Nat × State)
  | [], acc => some acc
  | c :: rest, (max_length, st) =>
    let next_canonical := canonicalize signedChar (write_candidate canonical current_len c)
    match find_group signedChar st.g_map next_canonical with
    | none => none
    | some none => char_loop signedChar call word_id canonical current_len rest (max_length, st)
    | some (some group) =>
      match group_loop call word_id group.word_index (List.range group.group_size)
          (max_length, st) with
      | none => none
      | some acc => char_loop signedChar call word_id canonical current_len rest acc

/-- The function `find_longest_chain`; the result is the returned length and
the tables after the call.  `fuel` bounds the depth of the recursion, `none` is a
recursion deeper than that (or a probe loop that does not end). -/
def find_longest_chain (signedChar : Bool) : Nat → State → Nat → Option (Nat × State)
  | 0, _, _ => none
  | fuel + 1, st, word_id =>
    let cw := st.g_dict.getD word_id zero_word
    if 0 < cw.max_chain_length then some (cw.max_chain_length, st)
    else
      let st0 : State := ⟨st.g_map, st.g_dict.set word_id { cw with num_next_steps := 0 }⟩
      match char_loop signedChar (find_longest_chain signedChar fuel) word_id cw.canonical
          cw.length candidate_chars (1, st0) with
      | none => none
      | some (max_length, st1) =>
        let cw1 := st1.g_dict.getD word_id zero_word
        some (max_length,
          ⟨st1.g_map, st1.g_dict.set word_id { cw1 with max_chain_length := max_length }⟩)

/-! ## Chain enumeration -/

/-- The `for` loop of `print_all_chains` over the stored next steps; `call` is
the recursive call, the result the lines printed, in order. -/
def print_loop (call : Nat → Option (List (List (List Nat)))) :
    List Nat → Option (List (List (List Nat)))
  | [] => some []
  | v :: rest =>
    match call v with
    | none => none
    | some out =>
      match print_loop call rest with
      | none => none
      | some outs => some (out ++ outs)

/-- The function `print_all_chains`.  A path is kept as the list of its words
(the C string joins them with " -> ", see `render_path`); the result is the list
of the paths printed, in order.  The allocation is taken to succeed. -/
def print_all_chains (g_dict : List DictWord) :
    Nat → Nat → List (List Nat) → Option (List (List (List Nat)))
  | 0, _, _ => none
  | fuel + 1, word_id, current_path =>
    let cw := g_dict.getD word_id zero_word
    let next_path := current_path ++ [cw.word]
    if cw.num_next_steps = 0 then some [next_path]
    else
      print_loop (fun v => print_all_chains g_dict fuel v next_path)
        ((List.range cw.num_next_steps).map (fun i => cw.next_in_chain.getD i 0))

/-- The bytes of a printed path: its words joined by " -> ". -/
def render_path : List (List Nat) → List Nat
  | [] => []
  | [w] => w
  | w :: rest => w ++ [32, 45, 62, 32] ++ render_path rest

/-! ## The main program -/

/-- What `main` reports. -/
inductive Outcome where
  | load_failed
  | not_found
  | no_chain
  | chains (overall_max_length : Nat) (paths : List (List (List Nat)))
  deriving DecidableEq, Repr

/-- The first loop of `main` over the start group: every member is searched and
the largest chain length kept. -/
def search_loop (signedChar : Bool) (fuel word_index : Nat) :
    List Nat → Nat × State → Option (Nat × State)
  | [], acc => some acc
  | i :: rest, (overall_max_length, st) =>
    match find_longest_chain signedChar fuel st (word_index + i) with
    | none => none
    | some (chain_len, st1) =>
      search_loop signedChar fuel word_index rest
        (if overall_max_length < chain_len then chain_len else overall_max_length, st1)

/-- The second loop of `main` over the start group: the chains of every member
whose chain length is the overall maximum are printed. -/
def output_loop (g_dict : List DictWord) (fuel word_index overall_max_length : Nat) :
    List Nat → Option (List (List (List Nat)))
  | [] => some []
  | i :: rest =>
    if (g_dict.getD (word_index + i) zero_word).max_chain_length = overall_max_length then
      match print_all_chains g_dict fuel (word_index + i) [] with
      | none => none
      | some out =>
        match output_loop g_dict fuel word_index overall_max_length rest with
        | none => none
        | some outs => some (out ++ outs)
    else output_loop g_dict fuel word_index overall_max_length rest

/-- The function `main` from the point where both inputs were read: the report
and the tables at exit.  `fuel` bounds the recursion depth of the search and of
the enumeration. -/
def main (signedChar : Bool) (fuel : Nat) (lines : List (List Nat))
    (starting_word_input : List Nat) : Option (Outcome × State) :=
  match load_and_preprocess_dictionary signedChar lines with
  | none => none
  | some none => some (Outcome.load_failed, ⟨empty_map, []⟩)
  | some (some st) =>
    match find_group signedChar st.g_map (canonicalize signedChar starting_word_input) with
    | none => none
    | some none => some (Outcome.not_found, st)
    | some (some start_group) =>
      match search_loop signedChar fuel start_group.word_index
          (List.range start_group.group_size) (0, st) with
      | none => none
      | some (overall_max_length, st1) =>
        if overall_max_length ≤ 1 then some (Outcome.no_chain, st1)
        else
          match output_loop st1.g_dict fuel start_group.word_index overall_max_length
              (List.range start_group.group_size) with
          | none => none
          | some paths => some (Outcome.chains overall_max_length paths, st1)

/-! ## Specification-side definitions -/

/-- The number of occupied slots of the index. -/
def occ_count (m : GMap) : Nat :=
  ((Finset.range HASH_TABLE_SIZE).filter (fun i => (m i).occupied = true)).card

/-- The home slot of a signature. -/
def home (sc : Bool) (k : List Nat) : Nat := hash_string sc k % HASH_TABLE_SIZE

/-- The invariant of the linear-probing index: `L` lists the slots stored so far;
every stored slot is reached from the home slot of its key through occupied slots
only. -/
structure TableInv (sc : Bool) (m : GMap) (L : List AnagramGroup) : Prop where
  path : ∀ i, i < HASH_TABLE_SIZE → (m i).occupied = true →
    ∃ d, d < HASH_TABLE_SIZE ∧ (home sc (m i).canonical_form + d) % HASH_TABLE_SIZE = i ∧
      ∀ j, j < d → (m ((home sc (m i).canonical_form + j) % HASH_TABLE_SIZE)).occupied = true
  count : occ_count m = L.length
  sound : ∀ i, i < HASH_TABLE_SIZE → (m i).occupied = true → m i ∈ L
  complete : ∀ g ∈ L, ∃ i, i < HASH_TABLE_SIZE ∧ m i = g
  occ : ∀ g ∈ L, g.occupied = true

/-- A sequence of `insert_group` calls, each given as (signature, start, size). -/
def insert_all (signedChar : Bool) : List (List Nat × Nat × Nat) → GMap → Option GMap
  | [], g_map => some g_map
  | call :: rest, g_map =>
    match insert_group signedChar g_map call.1 call.2.1 call.2.2 with
    | none => none
    | some g_map1 => insert_all signedChar rest g_map1

/-- The words of the input that survive the loader's filter. -/
def valid_words (lines : List (List Nat)) : List (List Nat) :=
  (lines.map strip_line).filter (fun w => ¬ (w.length = 0 ∨ MAX_WORD_LEN < w.length))

/-- The table indices of a group, in the order the loops visit them. -/
def group_ids (g : AnagramGroup) : List Nat :=
  (List.range g.group_size).map (fun i => g.word_index + i)

/-- The word ids the two loops of `find_longest_chain` visit for an entry with the
given `canonical` and `length`, in order, for the candidate characters `cs`. -/
def visited_ids (signedChar : Bool) (g_map : GMap) (canonical : List Nat) (current_len : Nat)
    (cs : List Nat) : List Nat :=
  (cs.map (fun c =>
    match find_group signedChar g_map
        (canonicalize signedChar (write_candidate canonical current_len c)) with
    | some (some g) => group_ids g
    | _ => [])).flatten

/-- The ids `find_longest_chain` recurses on for entry `w` of the tables `D`. -/
def search_ids (signedChar : Bool) (D : State) (w : Nat) : List Nat :=
  visited_ids signedChar D.g_map (D.g_dict.getD w zero_word).canonical
    (D.g_dict.getD w zero_word).length candidate_chars

/-- The chain length of entry `w` computed without the memo: one more than the
largest value over the visited successors, 1 without any. -/
def chain_value (signedChar : Bool) (D : State) : Nat → Nat → Nat
  | 0, _ => 1
  | fuel + 1, w =>
    (search_ids signedChar D w).foldl (fun m v => max m (1 + chain_value signedChar D fuel v)) 1

/-- The chain length of entry `w`, with the recursion depth its length leaves. -/
def chain_len (signedChar : Bool) (D : State) (w : Nat) : Nat :=
  chain_value signedChar D (MAX_WORD_LEN + 1 - (D.g_dict.getD w zero_word).length) w

/-- All successors of entry `w`: the table entries whose canonical signature is
the canonical form of `canonical(w)` followed by one character in 33..126. -/
def all_successors (signedChar : Bool) (D : State) (w : Nat) : List Nat :=
  (List.range D.g_dict.length).filter (fun v =>
    candidate_chars.any (fun c =>
      decide ((D.g_dict.getD v zero_word).canonical
        = canonicalize signedChar ((D.g_dict.getD w zero_word).canonical ++ [c]))))

/-- The states the program can be in after the dictionary `D` was built: any
number of completed calls of `find_longest_chain` on table entries. -/
inductive Reachable (signedChar : Bool) (D : State) : State → Prop
  | built : Reachable signedChar D D
  | call (st st1 : State) (fuel word_id r : Nat) :
      Reachable signedChar D st → word_id < D.g_dict.length →
      find_longest_chain signedChar fuel st word_id = some (r, st1) →
      Reachable signedChar D st1

/-- What the loader guarantees of a table entry before any search. -/
structure FreshEntry (signedChar : Bool) (e : DictWord) : Prop where
  canon : e.canonical = canonicalize signedChar e.word
  len : e.length = e.word.length
  len_pos : 1 ≤ e.length
  len_le : e.length ≤ MAX_WORD_LEN
  memo : e.max_chain_length = 0
  steps : e.num_next_steps = 0
  next : e.next_in_chain = List.replicate MAX_NEXT_STEPS 0

/-- The groups `L` stored so far describe the table `D` up to index `upto`: every
group is a non-empty range of entries that carry its key, and every index below
`upto` lies in the range of a group. -/
structure RunsOK (D : List DictWord) (upto : Nat) (L : List AnagramGroup) : Prop where
  run : ∀ g ∈ L, 1 ≤ g.group_size ∧ g.word_index + g.group_size ≤ upto ∧
    ∀ j, g.word_index ≤ j → j < g.word_index + g.group_size →
      (D.getD j zero_word).canonical = g.canonical_form
  cover : ∀ j, j < upto → ∃ g ∈ L, g.word_index ≤ j ∧ j < g.word_index + g.group_size
  short : L.length ≤ upto
  bound : upto ≤ D.length

/-- The properties of the built tables that the search relies on. -/
structure BuiltOK (signedChar : Bool) (D : State) : Prop where
  entries : ∀ e ∈ D.g_dict, FreshEntry signedChar e
  hit : ∀ s g, find_group signedChar D.g_map s = some (some g) →
    1 ≤ g.group_size ∧ g.word_index + g.group_size ≤ D.g_dict.length ∧
    ∀ j, g.word_index ≤ j → j < g.word_index + g.group_size →
      (D.g_dict.getD j zero_word).canonical = s
  total : ∀ s, (∃ g, find_group signedChar D.g_map s = some (some g)) ∨
    (find_group signedChar D.g_map s = some none ∧ ∀ e ∈ D.g_dict, e.canonical ≠ s)
  size : 1 ≤ D.g_dict.length ∧ D.g_dict.length ≤ MAX_DICT_SIZE

/-- The fields of a table entry that the search never writes. -/
def same_static (a b : DictWord) : Prop :=
  a.word = b.word ∧ a.canonical = b.canonical ∧ a.id = b.id ∧ a.length = b.length

/-- The visited successors of `w` that continue a longest chain, in visiting order. -/
def best_ids (signedChar : Bool) (D : State) (w : Nat) : List Nat :=
  (search_ids signedChar D w).filter
    (fun v => decide (1 + chain_len signedChar D v = chain_len signedChar D w))

/-- The memo fields of a computed entry `i` of `st` are the ones the search over the
tables `D` produces. -/
structure EntryOK (signedChar : Bool) (D st : State) (i : Nat) : Prop where
  value : (st.g_dict.getD i zero_word).max_chain_length = chain_len signedChar D i
  steps : (st.g_dict.getD i zero_word).num_next_steps
    = min MAX_NEXT_STEPS (best_ids signedChar D i).length
  next : (st.g_dict.getD i zero_word).next_in_chain.take
      (st.g_dict.getD i zero_word).num_next_steps
    = (best_ids signedChar D i).take MAX_NEXT_STEPS
  closed : ∀ v ∈ search_ids signedChar D i, 0 < (st.g_dict.getD v zero_word).max_chain_length

/-- The invariant of the search on the tables built as `D`: the index and the static
fields are those of `D`, and every computed entry of length at least `L` is right. -/
structure PInv (signedChar : Bool) (D st : State) (L : Nat) : Prop where
  map : st.g_map = D.g_map
  len : st.g_dict.length = D.g_dict.length
  static : ∀ i, i < D.g_dict.length →
    same_static (st.g_dict.getD i zero_word) (D.g_dict.getD i zero_word)
  room : ∀ i, i < D.g_dict.length →
    (st.g_dict.getD i zero_word).next_in_chain.length = MAX_NEXT_STEPS
  ok : ∀ i, i < D.g_dict.length → L ≤ (D.g_dict.getD i zero_word).length →
    0 < (st.g_dict.getD i zero_word).max_chain_length → EntryOK signedChar D st i

/-- A call leaves alone every entry shorter than `L` and every computed entry. -/
def Frame (D st st1 : State) (L : Nat) : Prop :=
  ∀ i, i < D.g_dict.length →
    ((D.g_dict.getD i zero_word).length < L ∨ 0 < (st.g_dict.getD i zero_word).max_chain_length) →
    st1.g_dict.getD i zero_word = st.g_dict.getD i zero_word

/-- What a call of the search on an entry of length `L` achieves. -/
def CallSpec (signedChar : Bool) (D : State) (call : State → Nat → Option (Nat × State))
    (L : Nat) : Prop :=
  ∀ st v, v < D.g_dict.length → (D.g_dict.getD v zero_word).length = L → PInv signedChar D st L →
    ∃ st1, call st v = some (chain_len signedChar D v, st1) ∧ PInv signedChar D st1 L ∧
      0 < (st1.g_dict.getD v zero_word).max_chain_length ∧ Frame D st st1 L

/-- The progress of the two loops on the memo fields `e` of the current word, after the
ids `P` were visited with running maximum `ml`; `f v` is the candidate length through
`v`. -/
structure Prog (f : Nat → Nat) (e : DictWord) (P : List Nat) (ml : Nat) : Prop where
  maxv : ml = P.foldl (fun m v => max m (f v)) 1
  steps : e.num_next_steps = min MAX_NEXT_STEPS (P.filter (fun v => decide (f v = ml))).length
  next : e.next_in_chain.take e.num_next_steps
    = (P.filter (fun v => decide (f v = ml))).take MAX_NEXT_STEPS
  room : e.next_in_chain.length = MAX_NEXT_STEPS

/-- The invariant of the two loops of `find_longest_chain` on word `w`, entered in
state `st0`, after the ids `P` were visited. -/
structure LoopInv (signedChar : Bool) (D : State) (w : Nat) (st0 st : State) (P : List Nat)
    (ml : Nat) : Prop where
  inv : PInv signedChar D st ((D.g_dict.getD w zero_word).length + 1)
  memo : (st.g_dict.getD w zero_word).max_chain_length = 0
  prog : Prog (fun v => 1 + chain_len signedChar D v) (st.g_dict.getD w zero_word) P ml
  done : ∀ v ∈ P, 0 < (st.g_dict.getD v zero_word).max_chain_length
  frame : ∀ i, i < D.g_dict.length → i ≠ w →
    ((D.g_dict.getD i zero_word).length ≤ (D.g_dict.getD w zero_word).length ∨
      0 < (st0.g_dict.getD i zero_word).max_chain_length) →
    st.g_dict.getD i zero_word = st0.g_dict.getD i zero_word

/-! ## Concrete inputs -/

/-- The tables a successful load returned (empty tables otherwise). -/
def tables_of (r : Option (Option State)) : State :=
  match r with
  | some (some st) => st
  | _ => ⟨empty_map, []⟩

/-- The tables after a completed call (those before it otherwise). -/
def state_after (st : State) (r : Option (Nat × State)) : State :=
  match r with
  | some x => x.2
  | none => st

/-- The word list "a", "at". -/
def lines_a_at : List (List Nat) := [[97], [97, 116]]

/-- The word list "a", "at", "so", "ta". -/
def lines_a_at_so_ta : List (List Nat) := [[97], [97, 116], [115, 111], [116, 97]]

/-- The word list "at", "so", "ta". -/
def lines_at_so_ta : List (List Nat) := [[97, 116], [115, 111], [116, 97]]

/-- The tables built from "a", "at" with signed plain `char`. -/
def built_a_at : State := tables_of (load_and_preprocess_dictionary true lines_a_at)

/-- The tables built from "a", "at" after `find_longest_chain(0)`. -/
def searched_a_at : State := state_after built_a_at (find_longest_chain true 256 built_a_at 0)

/-- The tables built from "at", "so", "ta" with signed plain `char`. -/
def built_at_so_ta : State := tables_of (load_and_preprocess_dictionary true lines_at_so_ta)

/-! ## Further specification-side definitions -/

/-- The ids `print_all_chains` recurses on at entry `w`, one per pass of its loop. -/
def branch_ids (g_dict : List DictWord) (w : Nat) : List Nat :=
  (List.range (g_dict.getD w zero_word).num_next_steps).map
    (fun i => (g_dict.getD w zero_word).next_in_chain.getD i 0)

/-- The capacity of the local buffer `current_canonical_copy`. -/
def COPY_CAPACITY : Nat := MAX_WORD_LEN + 1

/-- An indexed write `buf[i] = v` into an array: `none` when `i` is not an index
of the array. -/
def indexed_write (buf : List Nat) (i v : Nat) : Option (List Nat) :=
  if i < buf.length then some (buf.set i v) else none

/-- The buffer `current_canonical_copy` after `strcpy` of `canonical` (the bytes
after the terminator are shown as 0). -/
def copy_buffer (canonical : List Nat) : List Nat :=
  (canonical ++ List.replicate (COPY_CAPACITY - canonical.length) 0).take COPY_CAPACITY

/-- The two indexed writes of `find_longest_chain` that build a candidate:
`[current_len] = c`, then `[current_len + 1] = 0`. -/
def candidate_writes (canonical : List Nat) (current_len c : Nat) : Option (List Nat) :=
  match indexed_write (copy_buffer canonical) current_len c with
  | none => none
  | some buf => indexed_write buf (current_len + 1) 0

/-- The C string held by a buffer: the bytes before the first 0. -/
def buffer_string (buf : List Nat) : List Nat :=
  buf.takeWhile (fun b => decide (b ≠ 0))

/-! ## Further concrete inputs -/

/-- The word list "a", "at", "ate", "ant", "tea". -/
def lines_spec_example : List (List Nat) :=
  [[97], [97, 116], [97, 116, 101], [97, 110, 116], [116, 101, 97]]

/-- The word list "b", "a". -/
def lines_b_a : List (List Nat) := [[98], [97]]

/-- The tables built from "b", "a" with signed plain `char`. -/
def built_b_a : State := tables_of (load_and_preprocess_dictionary true lines_b_a)

/-- The word list "eat", "eat". -/
def lines_eat_eat : List (List Nat) := [[101, 97, 116], [101, 97, 116]]

/-- The tables built from "eat", "eat" with signed plain `char`. -/
def built_eat_eat : State := tables_of (load_and_preprocess_dictionary true lines_eat_eat)

/-- The tables built from "a", "at", "so", "ta" with signed plain `char`. -/
def built_a_at_so_ta : State :=
  tables_of (load_and_preprocess_dictionary true lines_a_at_so_ta)

/-- The tables built from "a", "at", "so", "ta" after `find_longest_chain(0)`. -/
def searched_a_at_so_ta : State :=
  state_after built_a_at_so_ta (find_longest_chain true 256 built_a_at_so_ta 0)

/-- The word list "a" followed by 101 copies of "at". -/
def lines_fan : List (List Nat) := [97] :: List.replicate 101 [97, 116]

/-- The tables built from `lines_fan` with signed plain `char`. -/
def built_fan : State := tables_of (load_and_preprocess_dictionary true lines_fan)

/-- The tables built from `lines_fan` after `find_longest_chain(0)`. -/
def searched_fan : State := state_after built_fan (find_longest_chain true 256 built_fan 0)

/-- The word list "a", "at", "so" followed by 101 copies of "ta". -/
def lines_split_fan : List (List Nat) :=
  [97] :: [97, 116] :: [115, 111] :: List.replicate 101 [116, 97]

/-- The tables built from `lines_split_fan` with signed plain `char`. -/
def built_split_fan : State :=
  tables_of (load_and_preprocess_dictionary true lines_split_fan)

/-- The tables built from `lines_split_fan` after `find_longest_chain(0)`. -/
def searched_split_fan : State :=
  state_after built_split_fan (find_longest_chain true 256 built_split_fan 0)

/-- A word of 255 letters "a", the longest the loader accepts. -/
def word_255 : List Nat := List.replicate 255 97

theorem char_val_inj (sc : Bool) {a b : Nat} (ha : a < 256) (hb : b < 256)
    (h : char_val sc a = char_val sc b) : a = b := by
  unfold char_val at h
  cases sc <;> simp at h <;> (try split_ifs at h) <;> omega

theorem char_val_small (sc : Bool) {a : Nat} (ha : a < 128) : char_val sc a = (a : Int) := by
  unfold char_val
  cases sc <;> simp
  omega

theorem compare_chars_le_iff (sc : Bool) (a b : Nat) :
    compare_chars sc a b ≤ 0 ↔ char_val sc a ≤ char_val sc b := by
  unfold compare_chars
  omega

theorem qsort_perm {α : Type} (compar : α → α → Int) (l : List α) : (qsort compar l).Perm l :=
  List.perm_insertionSort _ l

theorem qsort_sorted {α : Type} (compar : α → α → Int)
    (htot : ∀ a b, compar a b ≤ 0 ∨ compar b a ≤ 0)
    (htrans : ∀ a b c, compar a b ≤ 0 → compar b c ≤ 0 → compar a c ≤ 0) (l : List α) :
    (qsort compar l).Sorted (fun a b => compar a b ≤ 0) := by
  haveI : IsTotal α (fun a b => compar a b ≤ 0) := ⟨htot⟩
  haveI : IsTrans α (fun a b => compar a b ≤ 0) := ⟨htrans⟩
  exact List.sorted_insertionSort _ l

theorem canonicalize_perm (sc : Bool) (w : List Nat) : (canonicalize sc w).Perm w :=
  qsort_perm _ w

theorem canonicalize_length (sc : Bool) (w : List Nat) : (canonicalize sc w).length = w.length :=
  (canonicalize_perm sc w).length_eq

theorem canonicalize_mem (sc : Bool) (w : List Nat) (x : Nat) :
    x ∈ canonicalize sc w ↔ x ∈ w :=
  (canonicalize_perm sc w).mem_iff

theorem canonicalize_sorted (sc : Bool) (w : List Nat) :
    (canonicalize sc w).Sorted (fun a b => compare_chars sc a b ≤ 0) := by
  apply qsort_sorted
  · intro a b
    simp only [compare_chars_le_iff]
    exact le_total _ _
  · intro a b c
    simp only [compare_chars_le_iff]
    exact le_trans

theorem canonicalize_sorted_val (sc : Bool) (w : List Nat) :
    ((canonicalize sc w).map (char_val sc)).Sorted (· ≤ ·) := by
  have h := canonicalize_sorted sc w
  simp only [compare_chars_le_iff] at h
  unfold List.Sorted at h ⊢
  rw [List.pairwise_map]
  exact h

theorem map_char_val_inj (sc : Bool) : ∀ (l1 l2 : List Nat), (∀ x ∈ l1, x < 256) →
    (∀ x ∈ l2, x < 256) → l1.map (char_val sc) = l2.map (char_val sc) → l1 = l2
  | [], [], _, _, _ => rfl
  | [], _ :: _, _, _, h => by simp at h
  | _ :: _, [], _, _, h => by simp at h
  | a :: l1, b :: l2, h1, h2, h => by
    simp only [List.map_cons, List.cons.injEq] at h
    have hab : a = b := char_val_inj sc (h1 a (by simp)) (h2 b (by simp)) h.1
    have := map_char_val_inj sc l1 l2 (fun x hx => h1 x (by simp [hx]))
      (fun x hx => h2 x (by simp [hx])) h.2
    rw [hab, this]

theorem canonicalize_eq_of_perm (sc : Bool) {a b : List Nat} (ha : ∀ x ∈ a, x < 256)
    (hp : a.Perm b) : canonicalize sc a = canonicalize sc b := by
  have hb : ∀ x ∈ b, x < 256 := fun x hx => ha x (hp.mem_iff.mpr hx)
  apply map_char_val_inj sc
  · intro x hx
    exact ha x ((canonicalize_mem sc a x).mp hx)
  · intro x hx
    exact hb x ((canonicalize_mem sc b x).mp hx)
  · apply List.eq_of_perm_of_sorted _ (canonicalize_sorted_val sc a) (canonicalize_sorted_val sc b)
    apply List.Perm.map
    exact ((canonicalize_perm sc a).trans hp).trans (canonicalize_perm sc b).symm

theorem perm_of_canonicalize_eq (sc : Bool) {a b : List Nat}
    (h : canonicalize sc a = canonicalize sc b) : a.Perm b :=
  ((canonicalize_perm sc a).symm.trans (h ▸ List.Perm.refl _)).trans (canonicalize_perm sc b)

theorem canonicalize_idem (sc : Bool) (w : List Nat) :
    canonicalize sc (canonicalize sc w) = canonicalize sc w :=
  List.Sorted.insertionSort_eq (canonicalize_sorted sc w)

theorem strcmp_eq_zero_iff : ∀ (a b : List Nat), strcmp a b = 0 ↔ a = b
  | [], [] => by simp [strcmp]
  | [], _ :: _ => by simp [strcmp]
  | _ :: _, [] => by simp [strcmp]
  | a :: as, b :: bs => by
    unfold strcmp
    by_cases h : a = b
    · simp [h, strcmp_eq_zero_iff as bs]
    · by_cases h2 : a < b <;> simp [h, h2]

theorem hts_pos : 0 < HASH_TABLE_SIZE := by unfold HASH_TABLE_SIZE; omega

theorem home_lt (sc : Bool) (k : List Nat) : home sc k < HASH_TABLE_SIZE :=
  Nat.mod_lt _ hts_pos

theorem step_mod (i j : Nat) :
    ((i + 1) % HASH_TABLE_SIZE + j) % HASH_TABLE_SIZE = (i + (j + 1)) % HASH_TABLE_SIZE := by
  rw [Nat.mod_add_mod]
  congr 1
  omega

theorem insert_probe_spec (m : GMap) : ∀ (d fuel i : Nat), d < fuel →
    (∀ j, j < d → (m ((i + j) % HASH_TABLE_SIZE)).occupied = true) →
    (m ((i + d) % HASH_TABLE_SIZE)).occupied = false → i < HASH_TABLE_SIZE →
    insert_probe m fuel i = some ((i + d) % HASH_TABLE_SIZE)
  | 0, fuel + 1, i, _, _, hfree, hi => by
    have : (i + 0) % HASH_TABLE_SIZE = i := by simp [Nat.mod_eq_of_lt hi]
    rw [this] at hfree ⊢
    simp [insert_probe, hfree]
  | d + 1, fuel + 1, i, hd, hocc, hfree, hi => by
    have h0 : (m i).occupied = true := by
      have := hocc 0 (by omega)
      simpa [Nat.mod_eq_of_lt hi] using this
    have ih := insert_probe_spec m d fuel ((i + 1) % HASH_TABLE_SIZE) (by omega)
      (fun j hj => by rw [step_mod]; exact hocc (j + 1) (by omega))
      (by rw [step_mod]; exact hfree) (Nat.mod_lt _ hts_pos)
    rw [step_mod] at ih
    simp [insert_probe, h0, ih]

theorem find_probe_miss (m : GMap) (k : List Nat) : ∀ (d fuel i : Nat), d < fuel →
    (∀ j, j < d → (m ((i + j) % HASH_TABLE_SIZE)).occupied = true ∧
      (m ((i + j) % HASH_TABLE_SIZE)).canonical_form ≠ k) →
    (m ((i + d) % HASH_TABLE_SIZE)).occupied = false → i < HASH_TABLE_SIZE →
    find_probe m k fuel i = some none
  | 0, fuel + 1, i, _, _, hfree, hi => by
    have : (i + 0) % HASH_TABLE_SIZE = i := by simp [Nat.mod_eq_of_lt hi]
    rw [this] at hfree
    simp [find_probe, hfree]
  | d + 1, fuel + 1, i, hd, hocc, hfree, hi => by
    have h0 := hocc 0 (by omega)
    simp only [Nat.add_zero, Nat.mod_eq_of_lt hi] at h0
    have ih := find_probe_miss m k d fuel ((i + 1) % HASH_TABLE_SIZE) (by omega)
      (fun j hj => by rw [step_mod]; exact hocc (j + 1) (by omega))
      (by rw [step_mod]; exact hfree) (Nat.mod_lt _ hts_pos)
    simp [find_probe, h0.1, strcmp_eq_zero_iff, h0.2, ih]

theorem find_probe_hit (m : GMap) (k : List Nat) : ∀ (d fuel i : Nat), d < fuel →
    (∀ j, j < d → (m ((i + j) % HASH_TABLE_SIZE)).occupied = true ∧
      (m ((i + j) % HASH_TABLE_SIZE)).canonical_form ≠ k) →
    (m ((i + d) % HASH_TABLE_SIZE)).occupied = true →
    (m ((i + d) % HASH_TABLE_SIZE)).canonical_form = k → i < HASH_TABLE_SIZE →
    find_probe m k fuel i = some (some (m ((i + d) % HASH_TABLE_SIZE)))
  | 0, fuel + 1, i, _, _, ho, hk, hi => by
    have : (i + 0) % HASH_TABLE_SIZE = i := by simp [Nat.mod_eq_of_lt hi]
    rw [this] at ho hk ⊢
    simp [find_probe, ho, strcmp_eq_zero_iff, hk]
  | d + 1, fuel + 1, i, hd, hocc, ho, hk, hi => by
    have h0 := hocc 0 (by omega)
    simp only [Nat.add_zero, Nat.mod_eq_of_lt hi] at h0
    have ih := find_probe_hit m k d fuel ((i + 1) % HASH_TABLE_SIZE) (by omega)
      (fun j hj => by rw [step_mod]; exact hocc (j + 1) (by omega))
      (by rw [step_mod]; exact ho) (by rw [step_mod]; exact hk) (Nat.mod_lt _ hts_pos)
    rw [step_mod] at ih
    simp [find_probe, h0.1, strcmp_eq_zero_iff, h0.2, ih]

theorem reach_slot (i e : Nat) (hi : i < HASH_TABLE_SIZE) (he : e < HASH_TABLE_SIZE) :
    ∃ d, d < HASH_TABLE_SIZE ∧ (i + d) % HASH_TABLE_SIZE = e := by
  refine ⟨(e + HASH_TABLE_SIZE - i) % HASH_TABLE_SIZE, Nat.mod_lt _ hts_pos, ?_⟩
  rw [Nat.add_mod_mod]
  have : i + (e + HASH_TABLE_SIZE - i) = e + HASH_TABLE_SIZE := by omega
  rw [this, Nat.add_mod_right, Nat.mod_eq_of_lt he]

theorem exists_free (m : GMap) (h : occ_count m < HASH_TABLE_SIZE) :
    ∃ e, e < HASH_TABLE_SIZE ∧ (m e).occupied = false := by
  by_contra hcon
  push_neg at hcon
  have hall : (Finset.range HASH_TABLE_SIZE).filter (fun i => (m i).occupied = true)
      = Finset.range HASH_TABLE_SIZE := by
    apply Finset.filter_true_of_mem
    intro i hi
    have := hcon i (Finset.mem_range.mp hi)
    simpa using this
  unfold occ_count at h
  rw [hall, Finset.card_range] at h
  exact Nat.lt_irrefl _ h

theorem occ_count_insert (m : GMap) (i : Nat) (g : AnagramGroup) (hi : i < HASH_TABLE_SIZE)
    (hfree : (m i).occupied = false) (hg : g.occupied = true) :
    occ_count (fun j => if j = i then g else m j) = occ_count m + 1 := by
  unfold occ_count
  have : (Finset.range HASH_TABLE_SIZE).filter
      (fun j => ((fun j => if j = i then g else m j) j).occupied = true)
      = insert i ((Finset.range HASH_TABLE_SIZE).filter (fun j => (m j).occupied = true)) := by
    ext j
    simp only [Finset.mem_filter, Finset.mem_range, Finset.mem_insert]
    by_cases hj : j = i
    · subst hj
      simp [hi, hg]
    · simp [hj]
  rw [this, Finset.card_insert_of_not_mem]
  simp [hfree]

/-- From any slot the probe sequence reaches a first slot satisfying `P`, when some slot
of the table satisfies `P`. -/
theorem first_slot (P : Nat → Prop) [DecidablePred P] (i : Nat) (hi : i < HASH_TABLE_SIZE)
    (h : ∃ e, e < HASH_TABLE_SIZE ∧ P e) :
    ∃ d, d < HASH_TABLE_SIZE ∧ P ((i + d) % HASH_TABLE_SIZE) ∧
      ∀ j, j < d → ¬ P ((i + j) % HASH_TABLE_SIZE) := by
  obtain ⟨e, he, hPe⟩ := h
  obtain ⟨d0, hd0, hd0e⟩ := reach_slot i e hi he
  have hex : ∃ d, P ((i + d) % HASH_TABLE_SIZE) := ⟨d0, by rw [hd0e]; exact hPe⟩
  refine ⟨Nat.find hex, ?_, Nat.find_spec hex, fun j hj => Nat.find_min hex hj⟩
  exact lt_of_le_of_lt (Nat.find_min' hex (by rw [hd0e]; exact hPe)) hd0

theorem tableInv_empty (sc : Bool) : TableInv sc empty_map [] where
  path := by intro i _ h; simp [empty_map] at h
  count := by simp [occ_count, empty_map]
  sound := by intro i _ h; simp [empty_map] at h
  complete := by intro g hg; simp at hg
  occ := by intro g hg; simp at hg

theorem insert_group_ok (sc : Bool) (m : GMap) (L : List AnagramGroup) (k : List Nat)
    (s z : Nat) (hinv : TableInv sc m L) (hlen : L.length < HASH_TABLE_SIZE) :
    ∃ m', insert_group sc m k s z = some m' ∧ TableInv sc m' (L ++ [⟨k, s, z, true⟩]) := by
  have hfree := exists_free m (by rw [hinv.count]; exact hlen)
  obtain ⟨d, hd, hPd, hmin⟩ := first_slot (fun e => (m e).occupied = false) (home sc k)
    (home_lt sc k) hfree
  have hocc : ∀ j, j < d → (m ((home sc k + j) % HASH_TABLE_SIZE)).occupied = true := by
    intro j hj
    have := hmin j hj
    simpa using this
  have hprobe := insert_probe_spec m d HASH_TABLE_SIZE (home sc k) hd hocc hPd (home_lt sc k)
  set i0 := (home sc k + d) % HASH_TABLE_SIZE with hi0
  have hi0lt : i0 < HASH_TABLE_SIZE := Nat.mod_lt _ hts_pos
  refine ⟨fun j => if j = i0 then ⟨k, s, z, true⟩ else m j, ?_, ?_⟩
  · unfold insert_group
    change (match insert_probe m HASH_TABLE_SIZE (home sc k) with
      | none => none
      | some i => some (fun j => if j = i then (⟨k, s, z, true⟩ : AnagramGroup) else m j)) = _
    rw [hprobe]
  · have hkeep : ∀ i, (m i).occupied = true →
        ((fun j => if j = i0 then (⟨k, s, z, true⟩ : AnagramGroup) else m j) i).occupied = true := by
      intro i hi
      by_cases h : i = i0 <;> simp [h, hi]
    constructor
    · intro i hi ho
      by_cases h : i = i0
      · subst h
        simp only [if_true]
        exact ⟨d, hd, rfl, fun j hj => hkeep _ (hocc j hj)⟩
      · simp only [h, if_false] at ho ⊢
        obtain ⟨d', hd', he, hp⟩ := hinv.path i hi ho
        exact ⟨d', hd', he, fun j hj => hkeep _ (hp j hj)⟩
    · rw [occ_count_insert m i0 _ hi0lt hPd rfl, hinv.count]
      simp
    · intro i hi ho
      by_cases h : i = i0
      · simp [h]
      · simp only [h, if_false] at ho ⊢
        exact List.mem_append_left _ (hinv.sound i hi ho)
    · intro g hg
      rcases List.mem_append.mp hg with hg | hg
      · obtain ⟨i, hi, hmi⟩ := hinv.complete g hg
        refine ⟨i, hi, ?_⟩
        have hne : i ≠ i0 := by
          intro h
          have h1 : (m i).occupied = true := by rw [hmi]; exact hinv.occ g hg
          rw [h, hPd] at h1
          exact Bool.noConfusion h1
        simp [hne, hmi]
      · simp only [List.mem_singleton] at hg
        exact ⟨i0, hi0lt, by simp [hg]⟩
    · intro g hg
      rcases List.mem_append.mp hg with hg | hg
      · exact hinv.occ g hg
      · simp only [List.mem_singleton] at hg
        rw [hg]

theorem find_group_ok (sc : Bool) (m : GMap) (L : List AnagramGroup) (k : List Nat)
    (hinv : TableInv sc m L) (hlen : L.length < HASH_TABLE_SIZE) :
    (∃ g ∈ L, g.canonical_form = k ∧ find_group sc m k = some (some g)) ∨
    ((∀ g ∈ L, g.canonical_form ≠ k) ∧ find_group sc m k = some none) := by
  have hfree := exists_free m (by rw [hinv.count]; exact hlen)
  have hstop : ∃ e, e < HASH_TABLE_SIZE ∧
      ((m e).occupied = false ∨ (m e).canonical_form = k) := by
    obtain ⟨e, he, hf⟩ := hfree
    exact ⟨e, he, Or.inl hf⟩
  obtain ⟨d, hd, hPd, hmin⟩ := first_slot
    (fun e => (m e).occupied = false ∨ (m e).canonical_form = k) (home sc k) (home_lt sc k) hstop
  have hbefore : ∀ j, j < d → (m ((home sc k + j) % HASH_TABLE_SIZE)).occupied = true ∧
      (m ((home sc k + j) % HASH_TABLE_SIZE)).canonical_form ≠ k := by
    intro j hj
    have := hmin j hj
    push_neg at this
    exact ⟨by simpa using this.1, this.2⟩
  by_cases ho : (m ((home sc k + d) % HASH_TABLE_SIZE)).occupied = true
  · have hk : (m ((home sc k + d) % HASH_TABLE_SIZE)).canonical_form = k := by
      rcases hPd with h | h
      · rw [ho] at h; exact Bool.noConfusion h
      · exact h
    left
    refine ⟨m ((home sc k + d) % HASH_TABLE_SIZE),
      hinv.sound _ (Nat.mod_lt _ hts_pos) ho, hk, ?_⟩
    exact find_probe_hit m k d HASH_TABLE_SIZE (home sc k) hd hbefore ho hk (home_lt sc k)
  · have ho' : (m ((home sc k + d) % HASH_TABLE_SIZE)).occupied = false := by simpa using ho
    right
    refine ⟨?_, find_probe_miss m k d HASH_TABLE_SIZE (home sc k) hd hbefore ho' (home_lt sc k)⟩
    intro g hg hgk
    obtain ⟨i, hi, hmi⟩ := hinv.complete g hg
    have hocc_i : (m i).occupied = true := by rw [hmi]; exact hinv.occ g hg
    obtain ⟨d', hd', he, hp⟩ := hinv.path i hi hocc_i
    rw [hmi, hgk] at he hp
    rcases Nat.lt_trichotomy d d' with h | h | h
    · have := hp d h
      rw [ho'] at this
      exact Bool.noConfusion this
    · rw [h, he] at ho'
      rw [ho'] at hocc_i
      exact Bool.noConfusion hocc_i
    · have := (hbefore d' h).2
      rw [he, hmi] at this
      exact this hgk

/-- The slot an `insert_group` call stores. -/
theorem insert_all_ok (sc : Bool) : ∀ (calls : List (List Nat × Nat × Nat)) (m : GMap)
    (L : List AnagramGroup), TableInv sc m L → L.length + calls.length < HASH_TABLE_SIZE →
    ∃ m', insert_all sc calls m = some m' ∧
      TableInv sc m' (L ++ calls.map (fun e => ⟨e.1, e.2.1, e.2.2, true⟩))
  | [], m, L, hinv, _ => ⟨m, rfl, by simpa using hinv⟩
  | e :: rest, m, L, hinv, hlen => by
    simp only [List.length_cons] at hlen
    obtain ⟨m1, h1, hinv1⟩ := insert_group_ok sc m L e.1 e.2.1 e.2.2 hinv (by omega)
    obtain ⟨m2, h2, hinv2⟩ := insert_all_ok sc rest m1 _ hinv1 (by simp; omega)
    refine ⟨m2, ?_, ?_⟩
    · simp [insert_all, h1, h2]
    · simpa using hinv2

theorem find_group_distinct (sc : Bool) (m : GMap) (calls : List (List Nat × Nat × Nat))
    (hinv : TableInv sc m (calls.map (fun e => ⟨e.1, e.2.1, e.2.2, true⟩)))
    (hlen : calls.length < HASH_TABLE_SIZE) (hnd : (calls.map (fun e => e.1)).Nodup) :
    (∀ e ∈ calls, find_group sc m e.1 = some (some ⟨e.1, e.2.1, e.2.2, true⟩)) ∧
    (∀ k, k ∉ calls.map (fun e => e.1) → find_group sc m k = some none) := by
  constructor
  · intro e he
    rcases find_group_ok sc m _ e.1 hinv (by simpa using hlen) with ⟨g, hg, hk, hf⟩ | ⟨hno, _⟩
    · obtain ⟨e', he', rfl⟩ := List.mem_map.mp hg
      simp only at hk
      have : e' = e := List.inj_on_of_nodup_map hnd he' he hk
      rw [hf, this]
    · exact absurd rfl (hno ⟨e.1, e.2.1, e.2.2, true⟩ (List.mem_map.mpr ⟨e, he, rfl⟩))
  · intro k hk
    rcases find_group_ok sc m _ k hinv (by simpa using hlen) with ⟨g, hg, hgk, _⟩ | ⟨_, hf⟩
    · obtain ⟨e', he', rfl⟩ := List.mem_map.mp hg
      simp only at hgk
      exact absurd (List.mem_map.mpr ⟨e', he', hgk⟩) hk
    · exact hf

/-! ## The loader -/

theorem getD_eq_getElem (l : List DictWord) (i : Nat) (h : i < l.length) :
    l.getD i zero_word = l[i] := by
  simp [List.getD, List.getElem?_eq_getElem h]

theorem getD_mem (l : List DictWord) (i : Nat) (h : i < l.length) :
    l.getD i zero_word ∈ l := by
  rw [getD_eq_getElem l i h]
  exact List.getElem_mem h

theorem new_entry_fresh (sc : Bool) (n : Nat) (w : List Nat)
    (hw : ¬ (w.length = 0 ∨ MAX_WORD_LEN < w.length)) : FreshEntry sc (new_entry sc n w) := by
  push_neg at hw
  constructor <;> simp [new_entry] <;> omega

theorem read_words_cons (sc : Bool) (line : List Nat) (rest : List (List Nat))
    (acc : List DictWord) : read_words sc (line :: rest) acc =
      if MAX_DICT_SIZE ≤ acc.length then acc
      else if (strip_line line).length = 0 ∨ MAX_WORD_LEN < (strip_line line).length then
        read_words sc rest acc
      else read_words sc rest (acc ++ [new_entry sc acc.length (strip_line line)]) := rfl

theorem valid_words_cons (line : List Nat) (rest : List (List Nat)) :
    valid_words (line :: rest) =
      if (strip_line line).length = 0 ∨ MAX_WORD_LEN < (strip_line line).length
      then valid_words rest else strip_line line :: valid_words rest := by
  unfold valid_words
  rw [List.map_cons, List.filter_cons]
  by_cases h : (strip_line line).length = 0 ∨ MAX_WORD_LEN < (strip_line line).length
  · rw [if_pos h, if_neg]
    simp only [decide_not, Bool.not_eq_true', decide_eq_false_iff_not, not_not]
    exact h
  · rw [if_neg h, if_pos]
    simp only [decide_not, Bool.not_eq_true', decide_eq_false_iff_not]
    exact h

theorem read_words_fresh (sc : Bool) : ∀ (lines : List (List Nat)) (acc : List DictWord),
    (∀ e ∈ acc, FreshEntry sc e) → ∀ e ∈ read_words sc lines acc, FreshEntry sc e
  | [], acc, h => by simpa [read_words] using h
  | line :: rest, acc, h => by
    rw [read_words_cons]
    split_ifs with h1 h2
    · exact h
    · exact read_words_fresh sc rest acc h
    · apply read_words_fresh sc rest
      intro e he
      rcases List.mem_append.mp he with he | he
      · exact h e he
      · simp only [List.mem_singleton] at he
        rw [he]
        exact new_entry_fresh sc _ _ h2

theorem read_words_length (sc : Bool) : ∀ (lines : List (List Nat)) (acc : List DictWord),
    acc.length ≤ MAX_DICT_SIZE → (read_words sc lines acc).length ≤ MAX_DICT_SIZE
  | [], acc, h => by simpa [read_words] using h
  | line :: rest, acc, h => by
    rw [read_words_cons]
    split_ifs with h1 h2
    · exact h
    · exact read_words_length sc rest acc h
    · apply read_words_length sc rest
      simp only [List.length_append, List.length_singleton]
      omega

theorem read_words_words (sc : Bool) : ∀ (lines : List (List Nat)) (acc : List DictWord),
    acc.length + (valid_words lines).length ≤ MAX_DICT_SIZE →
    (read_words sc lines acc).map (fun e => e.word) = acc.map (fun e => e.word) ++ valid_words lines
  | [], acc, _ => by simp [read_words, valid_words]
  | line :: rest, acc, h => by
    rw [read_words_cons]
    have hv := valid_words_cons line rest
    by_cases h2 : (strip_line line).length = 0 ∨ MAX_WORD_LEN < (strip_line line).length
    · rw [if_pos h2] at hv ⊢
      rw [hv] at h ⊢
      split_ifs with h1
      · have h0 : (valid_words rest).length = 0 := by omega
        simp [List.length_eq_zero.mp h0]
      · exact read_words_words sc rest acc h
    · rw [if_neg h2] at hv ⊢
      rw [hv] at h ⊢
      simp only [List.length_cons] at h
      have h1 : ¬ MAX_DICT_SIZE ≤ acc.length := by omega
      rw [if_neg h1, read_words_words sc rest _ (by simp; omega)]
      simp [new_entry]

/-! ## The grouping scan -/

theorem count_run_le (c : List Nat) : ∀ (l : List DictWord), count_run c l ≤ l.length
  | [] => by simp [count_run]
  | e :: rest => by
    unfold count_run
    split_ifs
    · have := count_run_le c rest
      simp only [List.length_cons]
      omega
    · omega

theorem count_run_spec (c : List Nat) : ∀ (l : List DictWord) (j : Nat), j < count_run c l →
    (l.getD j zero_word).canonical = c
  | [], j, h => by simp [count_run] at h
  | e :: rest, j, h => by
    unfold count_run at h
    split_ifs at h with h1
    · cases j with
      | zero => simpa [strcmp_eq_zero_iff] using h1
      | succ j =>
        have := count_run_spec c rest j (by omega)
        simpa using this
    · omega

theorem count_run_pos (c : List Nat) (e : DictWord) (rest : List DictWord)
    (h : e.canonical = c) : 1 ≤ count_run c (e :: rest) := by
  unfold count_run
  rw [if_pos ((strcmp_eq_zero_iff _ _).mpr h)]
  omega

theorem getD_drop (l : List DictWord) (i j : Nat) :
    (l.drop i).getD j zero_word = l.getD (i + j) zero_word := by
  simp [List.getD, List.getElem?_drop]

theorem runsOK_nil (D : List DictWord) : RunsOK D 0 [] where
  run := by intro g hg; simp at hg
  cover := by intro j hj; omega
  short := by simp
  bound := by omega

theorem populate_ok (sc : Bool) (D : List DictWord) (hD : D.length ≤ MAX_DICT_SIZE) :
    ∀ (fuel gsi : Nat) (m : GMap) (L : List AnagramGroup), TableInv sc m L → RunsOK D gsi L →
    D.length - gsi ≤ fuel →
    ∃ m' L', populate sc D fuel gsi m = some m' ∧ TableInv sc m' L' ∧ RunsOK D D.length L'
  | 0, gsi, m, L, hinv, hruns, hfuel => by
    have hb := hruns.bound
    have : gsi = D.length := by omega
    subst this
    exact ⟨m, L, by simp [populate], hinv, hruns⟩
  | fuel + 1, gsi, m, L, hinv, hruns, hfuel => by
    have hb := hruns.bound
    by_cases hlt : gsi < D.length
    · set c := (D.getD gsi zero_word).canonical with hc
      set z := count_run c (D.drop gsi) with hz
      have hdrop : D.drop gsi = D[gsi] :: D.drop (gsi + 1) := List.drop_eq_getElem_cons hlt
      have hz1 : 1 ≤ z := by
        rw [hz, hdrop]
        apply count_run_pos
        rw [hc, getD_eq_getElem D gsi hlt]
      have hz2 : gsi + z ≤ D.length := by
        have := count_run_le c (D.drop gsi)
        simp only [List.length_drop] at this
        omega
      have hlenL : L.length < HASH_TABLE_SIZE := by
        have := hruns.short
        unfold MAX_DICT_SIZE at hD
        unfold HASH_TABLE_SIZE
        omega
      obtain ⟨m1, h1, hinv1⟩ := insert_group_ok sc m L c gsi z hinv hlenL
      have hruns1 : RunsOK D (gsi + z) (L ++ [⟨c, gsi, z, true⟩]) := by
        constructor
        · intro g hg
          rcases List.mem_append.mp hg with hg | hg
          · obtain ⟨a, b, c'⟩ := hruns.run g hg
            exact ⟨a, by omega, c'⟩
          · simp only [List.mem_singleton] at hg
            subst hg
            refine ⟨hz1, le_refl _, ?_⟩
            intro j hj1 hj2
            simp only at hj1 hj2 ⊢
            have := count_run_spec c (D.drop gsi) (j - gsi) (by omega)
            rw [getD_drop] at this
            have hj : gsi + (j - gsi) = j := by omega
            rw [hj] at this
            exact this
        · intro j hj
          by_cases hjl : j < gsi
          · obtain ⟨g, hg, hr⟩ := hruns.cover j hjl
            exact ⟨g, List.mem_append_left _ hg, hr⟩
          · exact ⟨⟨c, gsi, z, true⟩, by simp, by simp; omega, by simp; omega⟩
        · have := hruns.short
          simp only [List.length_append, List.length_singleton]
          omega
        · exact hz2
      obtain ⟨m', L', h2, hinv', hruns'⟩ := populate_ok sc D hD fuel (gsi + z) m1 _ hinv1 hruns1
        (by omega)
      refine ⟨m', L', ?_, hinv', hruns'⟩
      unfold populate
      simp only [hlt, if_true]
      rw [← hc, ← hz, h1]
      exact h2
    · have : gsi = D.length := by omega
      subst this
      exact ⟨m, L, by simp [populate], hinv, hruns⟩

theorem load_ok (sc : Bool) (lines : List (List Nat))
    (h : (read_words sc lines []).length ≠ 0) :
    ∃ D, load_and_preprocess_dictionary sc lines = some (some D) ∧ BuiltOK sc D ∧
      D.g_dict.Perm (read_words sc lines []) := by
  set R := read_words sc lines [] with hR
  set Dd := qsort (fun (a b : DictWord) => strcmp a.word b.word) R with hDd
  have hperm : Dd.Perm R := qsort_perm _ R
  have hlen : Dd.length ≤ MAX_DICT_SIZE := by
    rw [hperm.length_eq]
    exact read_words_length sc lines [] (by simp)
  obtain ⟨m, L, hpop, hinv, hruns⟩ := populate_ok sc Dd hlen Dd.length 0 empty_map []
    (tableInv_empty sc) (runsOK_nil Dd) (by omega)
  have hLlen : L.length < HASH_TABLE_SIZE := by
    have := hruns.short
    unfold MAX_DICT_SIZE at hlen
    unfold HASH_TABLE_SIZE
    omega
  refine ⟨⟨m, Dd⟩, ?_, ?_, hperm⟩
  · unfold load_and_preprocess_dictionary
    simp only [← hR, h, if_false, ← hDd, hpop]
  · constructor
    · intro e he
      exact read_words_fresh sc lines [] (by simp) e (hperm.mem_iff.mp he)
    · intro s g hf
      rcases find_group_ok sc m L s hinv hLlen with ⟨g', hg', hk, hf'⟩ | ⟨_, hf'⟩
      · simp only at hf
        rw [hf'] at hf
        have : g' = g := by simpa using hf
        subst this
        obtain ⟨a, b, c⟩ := hruns.run g' hg'
        exact ⟨a, b, fun j h1 h2 => by rw [c j h1 h2, hk]⟩
      · simp only at hf
        rw [hf'] at hf
        simp at hf
    · intro s
      rcases find_group_ok sc m L s hinv hLlen with ⟨g', _, _, hf'⟩ | ⟨hno, hf'⟩
      · exact Or.inl ⟨g', hf'⟩
      · refine Or.inr ⟨hf', ?_⟩
        intro e he hes
        obtain ⟨j, hj, hje⟩ := List.getElem_of_mem he
        obtain ⟨g, hg, h1, h2⟩ := hruns.cover j hj
        have := (hruns.run g hg).2.2 j h1 h2
        simp only at hj
        rw [getD_eq_getElem Dd j hj, hje, hes] at this
        exact hno g hg this.symm
    · simp only
      refine ⟨?_, hlen⟩
      rw [hperm.length_eq]
      omega

theorem load_cases (sc : Bool) (lines : List (List Nat)) :
    (load_and_preprocess_dictionary sc lines = some none ∧ (read_words sc lines []).length = 0) ∨
    ∃ D, load_and_preprocess_dictionary sc lines = some (some D) ∧ BuiltOK sc D ∧
      D.g_dict.Perm (read_words sc lines []) := by
  by_cases h : (read_words sc lines []).length = 0
  · left
    exact ⟨by simp [load_and_preprocess_dictionary, h], h⟩
  · exact Or.inr (load_ok sc lines h)

theorem built_of_load (sc : Bool) (lines : List (List Nat)) (D : State)
    (h : load_and_preprocess_dictionary sc lines = some (some D)) :
    BuiltOK sc D ∧ D.g_dict.Perm (read_words sc lines []) := by
  rcases load_cases sc lines with ⟨h0, _⟩ | ⟨D', h1, hb, hp⟩
  · rw [h0] at h
    simp at h
  · rw [h1] at h
    have : D' = D := by simpa using h
    subst this
    exact ⟨hb, hp⟩

/-! ## Lists -/

theorem getD_set_self (l : List DictWord) (i : Nat) (x : DictWord) (h : i < l.length) :
    (l.set i x).getD i zero_word = x := by
  simp [List.getD, List.getElem?_set, h]

theorem getD_set_ne (l : List DictWord) (i j : Nat) (x : DictWord) (h : j ≠ i) :
    (l.set i x).getD j zero_word = l.getD j zero_word := by
  simp [List.getD, List.getElem?_set, Ne.symm h]

theorem take_succ_set (l : List Nat) (n v : Nat) (h : n < l.length) :
    (l.set n v).take (n + 1) = l.take n ++ [v] := by
  rw [List.take_succ]
  have h1 : (l.set n v).take n = l.take n := by
    rw [List.set_take]
    apply List.set_eq_of_length_le
    simp
  rw [h1]
  simp [List.getElem?_set, h]

theorem foldl_max_ge (f : Nat → Nat) : ∀ (l : List Nat) (a : Nat),
    a ≤ l.foldl (fun m v => max m (f v)) a ∧ ∀ v ∈ l, f v ≤ l.foldl (fun m v => max m (f v)) a
  | [], a => by simp
  | x :: l, a => by
    obtain ⟨h1, h2⟩ := foldl_max_ge f l (max a (f x))
    simp only [List.foldl_cons, List.mem_cons]
    refine ⟨le_trans (le_max_left _ _) h1, ?_⟩
    rintro v (rfl | hv)
    · exact le_trans (le_max_right _ _) h1
    · exact h2 v hv

theorem foldl_max_attained (f : Nat → Nat) : ∀ (l : List Nat) (a : Nat),
    l.foldl (fun m v => max m (f v)) a = a ∨ ∃ v ∈ l, l.foldl (fun m v => max m (f v)) a = f v
  | [], a => by simp
  | x :: l, a => by
    simp only [List.foldl_cons, List.mem_cons]
    rcases foldl_max_attained f l (max a (f x)) with h | ⟨v, hv, h⟩
    · rcases le_total a (f x) with hle | hle
      · right
        exact ⟨x, Or.inl rfl, by rw [h, max_eq_right hle]⟩
      · left
        rw [h, max_eq_left hle]
    · right
      exact ⟨v, Or.inr hv, h⟩

theorem foldl_max_append (f : Nat → Nat) (P : List Nat) (v a : Nat) :
    (P ++ [v]).foldl (fun m v => max m (f v)) a
      = max (P.foldl (fun m v => max m (f v)) a) (f v) := by
  simp [List.foldl_append]

theorem foldl_congr_mem {f g : Nat → Nat → Nat} : ∀ (l : List Nat) (a : Nat),
    (∀ v ∈ l, ∀ m, f m v = g m v) → l.foldl f a = l.foldl g a
  | [], _, _ => rfl
  | x :: l, a, h => by
    simp only [List.foldl_cons]
    rw [h x (by simp) a]
    exact foldl_congr_mem l _ (fun v hv m => h v (by simp [hv]) m)

/-! ## One step of the running maximum -/

theorem prog_init (f : Nat → Nat) (e : DictWord) (h0 : e.num_next_steps = 0)
    (hroom : e.next_in_chain.length = MAX_NEXT_STEPS) : Prog f e [] 1 where
  maxv := by simp
  steps := by simp [h0]
  next := by simp [h0]
  room := hroom

theorem prog_greater (f : Nat → Nat) (e : DictWord) (P : List Nat) (ml v : Nat)
    (h : Prog f e P ml) (hgt : ml < f v) :
    Prog f { e with num_next_steps := 1, next_in_chain := e.next_in_chain.set 0 v }
      (P ++ [v]) (f v) := by
  have hle : ∀ u ∈ P, f u ≤ ml := by
    intro u hu
    rw [h.maxv]
    exact (foldl_max_ge f P 1).2 u hu
  have hfil : (P ++ [v]).filter (fun u => decide (f u = f v)) = [v] := by
    rw [List.filter_append]
    have : P.filter (fun u => decide (f u = f v)) = [] := by
      rw [List.filter_eq_nil_iff]
      intro u hu
      have := hle u hu
      simp only [decide_eq_true_eq]
      omega
    rw [this]
    simp
  have hroom := h.room
  constructor
  · rw [foldl_max_append, ← h.maxv, max_eq_right (le_of_lt hgt)]
  · rw [hfil]
    simp [MAX_NEXT_STEPS]
  · rw [hfil]
    simp only
    have : 0 < e.next_in_chain.length := by rw [hroom]; unfold MAX_NEXT_STEPS; omega
    rw [take_succ_set _ 0 v this]
    simp [MAX_NEXT_STEPS]
  · simp [hroom]

theorem prog_equal_room (f : Nat → Nat) (e : DictWord) (P : List Nat) (ml v : Nat)
    (h : Prog f e P ml) (heq : f v = ml) (hlt : e.num_next_steps < MAX_NEXT_STEPS) :
    Prog f { e with num_next_steps := e.num_next_steps + 1,
                    next_in_chain := e.next_in_chain.set e.num_next_steps v }
      (P ++ [v]) ml := by
  have hfil : (P ++ [v]).filter (fun u => decide (f u = ml))
      = P.filter (fun u => decide (f u = ml)) ++ [v] := by
    rw [List.filter_append]
    simp [heq]
  have hsteps := h.steps
  have hnext := h.next
  have hroom := h.room
  have hlen : (P.filter (fun u => decide (f u = ml))).length = e.num_next_steps := by
    rw [hsteps] at hlt ⊢
    omega
  constructor
  · rw [foldl_max_append, ← h.maxv, heq, max_self]
  · rw [hfil]
    simp only [List.length_append, List.length_singleton, hlen]
    omega
  · rw [hfil]
    simp only
    rw [take_succ_set _ _ v (by rw [hroom]; exact hlt), hnext]
    rw [List.take_of_length_le (by rw [hlen]; omega)]
    rw [List.take_of_length_le (by simp [hlen]; omega)]
  · simp [hroom]

theorem prog_equal_full (f : Nat → Nat) (e : DictWord) (P : List Nat) (ml v : Nat)
    (h : Prog f e P ml) (heq : f v = ml) (hfull : ¬ e.num_next_steps < MAX_NEXT_STEPS) :
    Prog f e (P ++ [v]) ml := by
  have hfil : (P ++ [v]).filter (fun u => decide (f u = ml))
      = P.filter (fun u => decide (f u = ml)) ++ [v] := by
    rw [List.filter_append]
    simp [heq]
  have hsteps := h.steps
  have hlen : MAX_NEXT_STEPS ≤ (P.filter (fun u => decide (f u = ml))).length := by
    rw [hsteps] at hfull
    omega
  constructor
  · rw [foldl_max_append, ← h.maxv, heq, max_self]
  · rw [hfil, hsteps]
    simp only [List.length_append, List.length_singleton]
    omega
  · rw [hfil, h.next, List.take_append_of_le_length hlen]
  · exact h.room

theorem prog_less (f : Nat → Nat) (e : DictWord) (P : List Nat) (ml v : Nat)
    (h : Prog f e P ml) (hlt : f v < ml) : Prog f e (P ++ [v]) ml := by
  have hfil : (P ++ [v]).filter (fun u => decide (f u = ml))
      = P.filter (fun u => decide (f u = ml)) := by
    rw [List.filter_append]
    have : ¬ f v = ml := by omega
    simp [this]
  constructor
  · rw [foldl_max_append, ← h.maxv, max_eq_left (le_of_lt hlt)]
  · rw [hfil]; exact h.steps
  · rw [hfil]; exact h.next
  · exact h.room

/-! ## The successor search on built tables -/

theorem write_candidate_eq (canonical : List Nat) (c : Nat) :
    write_candidate canonical canonical.length c = canonical ++ [c] := by
  simp [write_candidate]

theorem fresh_at (sc : Bool) (D : State) (hB : BuiltOK sc D) (i : Nat)
    (hi : i < D.g_dict.length) : FreshEntry sc (D.g_dict.getD i zero_word) :=
  hB.entries _ (getD_mem _ i hi)

theorem fresh_canonical_length (sc : Bool) (e : DictWord) (h : FreshEntry sc e) :
    e.canonical.length = e.length := by
  rw [h.canon, canonicalize_length, h.len]

theorem visited_ids_cons (sc : Bool) (m : GMap) (can : List Nat) (len c : Nat) (cs : List Nat) :
    visited_ids sc m can len (c :: cs) =
      (match find_group sc m (canonicalize sc (write_candidate can len c)) with
        | some (some g) => group_ids g
        | _ => []) ++ visited_ids sc m can len cs := rfl

theorem mem_group_ids (g : AnagramGroup) (v : Nat) :
    v ∈ group_ids g ↔ g.word_index ≤ v ∧ v < g.word_index + g.group_size := by
  unfold group_ids
  simp only [List.mem_map, List.mem_range]
  constructor
  · rintro ⟨i, hi, rfl⟩
    omega
  · rintro ⟨h1, h2⟩
    exact ⟨v - g.word_index, by omega, by omega⟩

theorem group_hit_valid (sc : Bool) (D : State) (hB : BuiltOK sc D) (w : Nat)
    (hw : w < D.g_dict.length) (c : Nat) (g : AnagramGroup)
    (hf : find_group sc D.g_map (canonicalize sc (write_candidate
      (D.g_dict.getD w zero_word).canonical (D.g_dict.getD w zero_word).length c)) = some (some g))
    (v : Nat) (hv : v ∈ group_ids g) :
    v < D.g_dict.length ∧
    (D.g_dict.getD v zero_word).length = (D.g_dict.getD w zero_word).length + 1 ∧
    (D.g_dict.getD v zero_word).canonical
      = canonicalize sc ((D.g_dict.getD w zero_word).canonical ++ [c]) := by
  have hfw := fresh_at sc D hB w hw
  have hcl := fresh_canonical_length sc _ hfw
  rw [← hcl, write_candidate_eq] at hf
  obtain ⟨_, h2, h3⟩ := hB.hit _ g hf
  rw [mem_group_ids] at hv
  have hvn : v < D.g_dict.length := by omega
  have hcan := h3 v hv.1 hv.2
  refine ⟨hvn, ?_, hcan⟩
  have hfv := fresh_at sc D hB v hvn
  rw [← fresh_canonical_length sc _ hfv, hcan, canonicalize_length, List.length_append,
    List.length_singleton, hcl]

theorem visited_ids_valid (sc : Bool) (D : State) (hB : BuiltOK sc D) (w : Nat)
    (hw : w < D.g_dict.length) (cs : List Nat) :
    ∀ v ∈ visited_ids sc D.g_map (D.g_dict.getD w zero_word).canonical
        (D.g_dict.getD w zero_word).length cs,
      v < D.g_dict.length ∧
      (D.g_dict.getD v zero_word).length = (D.g_dict.getD w zero_word).length + 1 ∧
      ∃ c ∈ cs, (D.g_dict.getD v zero_word).canonical
        = canonicalize sc ((D.g_dict.getD w zero_word).canonical ++ [c]) := by
  intro v hv
  unfold visited_ids at hv
  rw [List.mem_flatten] at hv
  obtain ⟨l, hl, hvl⟩ := hv
  obtain ⟨c, hc, rfl⟩ := List.mem_map.mp hl
  rcases hfg : find_group sc D.g_map (canonicalize sc (write_candidate
      (D.g_dict.getD w zero_word).canonical (D.g_dict.getD w zero_word).length c)) with _ | _ | g
  · rw [hfg] at hvl
    simp at hvl
  · rw [hfg] at hvl
    simp at hvl
  · rw [hfg] at hvl
    obtain ⟨h1, h2, h3⟩ := group_hit_valid sc D hB w hw c g hfg v hvl
    exact ⟨h1, h2, c, hc, h3⟩

theorem search_ids_valid (sc : Bool) (D : State) (hB : BuiltOK sc D) (w : Nat)
    (hw : w < D.g_dict.length) :
    ∀ v ∈ search_ids sc D w,
      v < D.g_dict.length ∧
      (D.g_dict.getD v zero_word).length = (D.g_dict.getD w zero_word).length + 1 ∧
      ∃ c ∈ candidate_chars, (D.g_dict.getD v zero_word).canonical
        = canonicalize sc ((D.g_dict.getD w zero_word).canonical ++ [c]) :=
  visited_ids_valid sc D hB w hw candidate_chars

theorem chain_len_unfold (sc : Bool) (D : State) (hB : BuiltOK sc D) (w : Nat)
    (hw : w < D.g_dict.length) :
    chain_len sc D w = (search_ids sc D w).foldl (fun m v => max m (1 + chain_len sc D v)) 1 := by
  have hfw := fresh_at sc D hB w hw
  have hle := hfw.len_le
  unfold chain_len
  have h1 : MAX_WORD_LEN + 1 - (D.g_dict.getD w zero_word).length
      = (MAX_WORD_LEN - (D.g_dict.getD w zero_word).length) + 1 := by omega
  rw [h1]
  conv_lhs => unfold chain_value
  apply foldl_congr_mem
  intro v hv m
  obtain ⟨_, h2, _⟩ := search_ids_valid sc D hB w hw v hv
  have h3 : MAX_WORD_LEN + 1 - (D.g_dict.getD v zero_word).length
      = MAX_WORD_LEN - (D.g_dict.getD w zero_word).length := by omega
  rw [h3]

theorem chain_len_pos (sc : Bool) (D : State) (hB : BuiltOK sc D) (w : Nat)
    (hw : w < D.g_dict.length) : 1 ≤ chain_len sc D w := by
  rw [chain_len_unfold sc D hB w hw]
  exact (foldl_max_ge _ _ 1).1

/-! ## Preservation of the invariant -/

theorem entryOK_transfer (sc : Bool) (D st st1 : State) (i : Nat) (h : EntryOK sc D st i)
    (heq : st1.g_dict.getD i zero_word = st.g_dict.getD i zero_word)
    (hmono : ∀ u ∈ search_ids sc D i, 0 < (st.g_dict.getD u zero_word).max_chain_length →
      0 < (st1.g_dict.getD u zero_word).max_chain_length) : EntryOK sc D st1 i where
  value := by rw [heq]; exact h.value
  steps := by rw [heq]; exact h.steps
  next := by rw [heq]; exact h.next
  closed := fun v hv => hmono v hv (h.closed v hv)

theorem set_getD_self (l : List DictWord) (i : Nat) (h : i < l.length) :
    l.set i (l.getD i zero_word) = l := by
  apply List.ext_getElem?
  intro n
  rw [List.getElem?_set]
  by_cases h1 : i = n
  · subst h1
    simp [List.getD, List.getElem?_eq_getElem h]
    exact h
  · simp [h1]

/-- The comparison step rewrites only the memo fields of the current word. -/
theorem update_best_spec (f : Nat → Nat) (w v ml : Nat) (g_dict : List DictWord)
    (hw : w < g_dict.length) (P : List Nat) (hP : Prog f (g_dict.getD w zero_word) P ml) :
    ∃ e2, update_best w v (f v) ml g_dict = ((update_best w v (f v) ml g_dict).1, g_dict.set w e2) ∧
      same_static e2 (g_dict.getD w zero_word) ∧
      e2.max_chain_length = (g_dict.getD w zero_word).max_chain_length ∧
      Prog f e2 (P ++ [v]) (update_best w v (f v) ml g_dict).1 := by
  unfold update_best
  simp only
  by_cases h1 : ml < f v
  · simp only [h1, if_true]
    exact ⟨_, rfl, ⟨rfl, rfl, rfl, rfl⟩, rfl, prog_greater f _ P ml v hP h1⟩
  · simp only [h1, if_false]
    by_cases h2 : f v = ml
    · simp only [h2, if_true]
      by_cases h3 : (g_dict.getD w zero_word).num_next_steps < MAX_NEXT_STEPS
      · simp only [h3, if_true]
        exact ⟨_, rfl, ⟨rfl, rfl, rfl, rfl⟩, rfl, prog_equal_room f _ P ml v hP h2 h3⟩
      · simp only [h3, if_false]
        refine ⟨g_dict.getD w zero_word, ?_, ⟨rfl, rfl, rfl, rfl⟩, rfl,
          prog_equal_full f _ P ml v hP h2 h3⟩
        rw [set_getD_self g_dict w hw]
    · simp only [h2, if_false]
      refine ⟨g_dict.getD w zero_word, ?_, ⟨rfl, rfl, rfl, rfl⟩, rfl,
        prog_less f _ P ml v hP (by omega)⟩
      rw [set_getD_self g_dict w hw]

/-- Writing the memo fields of the current word keeps the invariant of the longer
entries. -/
theorem pinv_set (sc : Bool) (D st : State) (w : Nat)
    (hw : w < D.g_dict.length) (L : Nat) (hL : (D.g_dict.getD w zero_word).length < L)
    (e2 : DictWord) (hinv : PInv sc D st L)
    (hstat : same_static e2 (st.g_dict.getD w zero_word))
    (hmemo : e2.max_chain_length = (st.g_dict.getD w zero_word).max_chain_length)
    (hroom : e2.next_in_chain.length = MAX_NEXT_STEPS) :
    PInv sc D ⟨st.g_map, st.g_dict.set w e2⟩ L := by
  have hwl : w < st.g_dict.length := by rw [hinv.len]; exact hw
  constructor
  · exact hinv.map
  · simp [hinv.len]
  · intro i hi
    by_cases h : i = w
    · subst h
      simp only
      rw [getD_set_self _ _ _ hwl]
      obtain ⟨a, b, c, d⟩ := hstat
      obtain ⟨a', b', c', d'⟩ := hinv.static i hi
      exact ⟨a.trans a', b.trans b', c.trans c', d.trans d'⟩
    · simp only
      rw [getD_set_ne _ _ _ _ h]
      exact hinv.static i hi
  · intro i hi
    by_cases h : i = w
    · subst h
      simp only
      rw [getD_set_self _ _ _ hwl]
      exact hroom
    · simp only
      rw [getD_set_ne _ _ _ _ h]
      exact hinv.room i hi
  · intro i hi hLi hpos
    have hne : i ≠ w := by
      intro h
      subst h
      omega
    simp only at hpos
    rw [getD_set_ne _ _ _ _ hne] at hpos
    apply entryOK_transfer sc D st _ i (hinv.ok i hi hLi hpos)
    · simp only
      rw [getD_set_ne _ _ _ _ hne]
    · intro u _ hu
      simp only
      by_cases h : u = w
      · subst h
        rw [getD_set_self _ _ _ hwl, hmemo]
        exact hu
      · rw [getD_set_ne _ _ _ _ h]
        exact hu

theorem lt_of_memo_pos (l : List DictWord) (u : Nat)
    (h : 0 < (l.getD u zero_word).max_chain_length) : u < l.length := by
  by_contra hcon
  have : l.getD u zero_word = zero_word := by
    simp [List.getD, List.getElem?_eq_none (not_lt.mp hcon)]
  rw [this] at h
  simp [zero_word] at h

/-- One pass of the inner loop body keeps the loop invariant. -/
theorem loop_step (sc : Bool) (D : State) (call : State → Nat → Option (Nat × State))
    (w : Nat) (hw : w < D.g_dict.length) (st0 st : State) (P : List Nat) (ml : Nat)
    (hcall : CallSpec sc D call ((D.g_dict.getD w zero_word).length + 1))
    (hinv : LoopInv sc D w st0 st P ml) (v : Nat) (hv : v < D.g_dict.length)
    (hvl : (D.g_dict.getD v zero_word).length = (D.g_dict.getD w zero_word).length + 1) :
    ∃ st1, call st v = some (chain_len sc D v, st1) ∧
      LoopInv sc D w st0
        ⟨st1.g_map, (update_best w v (1 + chain_len sc D v) ml st1.g_dict).2⟩ (P ++ [v])
        (update_best w v (1 + chain_len sc D v) ml st1.g_dict).1 := by
  obtain ⟨st1, hc, hinv1, hcomp, hframe⟩ := hcall st v hv hvl hinv.inv
  have hw1 : st1.g_dict.getD w zero_word = st.g_dict.getD w zero_word :=
    hframe w hw (Or.inl (by omega))
  have hwl1 : w < st1.g_dict.length := by rw [hinv1.len]; exact hw
  have hP1 : Prog (fun v => 1 + chain_len sc D v) (st1.g_dict.getD w zero_word) P ml := by
    rw [hw1]; exact hinv.prog
  obtain ⟨e2, hupd, hstat, hmemo, hprog⟩ :=
    update_best_spec (fun v => 1 + chain_len sc D v) w v ml st1.g_dict hwl1 P hP1
  have hsnd : (update_best w v (1 + chain_len sc D v) ml st1.g_dict).2 = st1.g_dict.set w e2 := by
    rw [hupd]
  have hvw : v ≠ w := by
    intro h
    rw [h] at hvl
    omega
  refine ⟨st1, hc, ?_⟩
  rw [hsnd]
  constructor
  · exact pinv_set sc D st1 w hw _ (by omega) e2 hinv1 hstat hmemo hprog.room
  · simp only
    rw [getD_set_self _ _ _ hwl1, hmemo, hw1]
    exact hinv.memo
  · simp only
    rw [getD_set_self _ _ _ hwl1]
    exact hprog
  · intro u hu
    simp only
    rcases List.mem_append.mp hu with hu | hu
    · have hpos := hinv.done u hu
      have hun : u < D.g_dict.length := by
        rw [← hinv.inv.len]
        exact lt_of_memo_pos _ u hpos
      have huw : u ≠ w := by
        intro h
        rw [h, hinv.memo] at hpos
        omega
      rw [getD_set_ne _ _ _ _ huw, hframe u hun (Or.inr hpos)]
      exact hpos
    · simp only [List.mem_singleton] at hu
      subst hu
      rw [getD_set_ne _ _ _ _ hvw]
      exact hcomp
  · intro i hi hne hcond
    simp only
    rw [getD_set_ne _ _ _ _ hne]
    have h0 := hinv.frame i hi hne hcond
    rw [← h0]
    apply hframe i hi
    rcases hcond with h | h
    · left; omega
    · right; rw [h0]; exact h

theorem group_loop_ok (sc : Bool) (D : State) (call : State → Nat → Option (Nat × State))
    (w : Nat) (hw : w < D.g_dict.length) (st0 : State)
    (hcall : CallSpec sc D call ((D.g_dict.getD w zero_word).length + 1)) (wi : Nat) :
    ∀ (is : List Nat) (P : List Nat) (ml : Nat) (st : State),
      (∀ i ∈ is, wi + i < D.g_dict.length ∧
        (D.g_dict.getD (wi + i) zero_word).length = (D.g_dict.getD w zero_word).length + 1) →
      LoopInv sc D w st0 st P ml →
      ∃ ml1 st1, group_loop call w wi is (ml, st) = some (ml1, st1) ∧
        LoopInv sc D w st0 st1 (P ++ is.map (fun i => wi + i)) ml1
  | [], P, ml, st, _, hinv => ⟨ml, st, rfl, by simpa using hinv⟩
  | i :: rest, P, ml, st, hval, hinv => by
    obtain ⟨h1, h2⟩ := hval i (by simp)
    obtain ⟨st1, hc, hinv1⟩ := loop_step sc D call w hw st0 st P ml hcall hinv (wi + i) h1 h2
    obtain ⟨ml2, st2, hg, hinv2⟩ := group_loop_ok sc D call w hw st0 hcall wi rest _ _ _
      (fun j hj => hval j (by simp [hj])) hinv1
    refine ⟨ml2, st2, ?_, ?_⟩
    · simp only [group_loop, hc]
      exact hg
    · simpa using hinv2

theorem char_loop_ok (sc : Bool) (D : State) (hB : BuiltOK sc D)
    (call : State → Nat → Option (Nat × State))
    (w : Nat) (hw : w < D.g_dict.length) (st0 : State)
    (hcall : CallSpec sc D call ((D.g_dict.getD w zero_word).length + 1)) :
    ∀ (cs : List Nat) (P : List Nat) (ml : Nat) (st : State),
      LoopInv sc D w st0 st P ml →
      ∃ ml1 st1, char_loop sc call w (D.g_dict.getD w zero_word).canonical
          (D.g_dict.getD w zero_word).length cs (ml, st) = some (ml1, st1) ∧
        LoopInv sc D w st0 st1 (P ++ visited_ids sc D.g_map (D.g_dict.getD w zero_word).canonical
          (D.g_dict.getD w zero_word).length cs) ml1
  | [], P, ml, st, hinv => ⟨ml, st, rfl, by simpa [visited_ids] using hinv⟩
  | c :: rest, P, ml, st, hinv => by
    rw [visited_ids_cons]
    unfold char_loop
    simp only [hinv.inv.map]
    rcases hB.total (canonicalize sc (write_candidate (D.g_dict.getD w zero_word).canonical
      (D.g_dict.getD w zero_word).length c)) with ⟨g, hf⟩ | ⟨hf, _⟩
    · rw [hf]
      simp only
      obtain ⟨ml1, st1, hg, hinv1⟩ := group_loop_ok sc D call w hw st0 hcall g.word_index
        (List.range g.group_size) P ml st
        (fun i hi => by
          have := group_hit_valid sc D hB w hw c g hf (g.word_index + i)
            ((mem_group_ids g _).mpr ⟨by omega, by
              have := List.mem_range.mp hi
              omega⟩)
          exact ⟨this.1, this.2.1⟩) hinv
      rw [hg]
      simp only
      obtain ⟨ml2, st2, hc2, hinv2⟩ := char_loop_ok sc D hB call w hw st0 hcall rest _ ml1 st1 hinv1
      refine ⟨ml2, st2, hc2, ?_⟩
      rw [← List.append_assoc]
      exact hinv2
    · rw [hf]
      simp only
      obtain ⟨ml2, st2, hc2, hinv2⟩ := char_loop_ok sc D hB call w hw st0 hcall rest P ml st hinv
      exact ⟨ml2, st2, hc2, by simpa using hinv2⟩

theorem pinv_mono (sc : Bool) (D st : State) (L L1 : Nat) (h : L ≤ L1) (hinv : PInv sc D st L) :
    PInv sc D st L1 where
  map := hinv.map
  len := hinv.len
  static := hinv.static
  room := hinv.room
  ok := fun i hi hL hpos => hinv.ok i hi (le_trans h hL) hpos

theorem flc_succ (sc : Bool) (fuel : Nat) (st : State) (w : Nat) :
    find_longest_chain sc (fuel + 1) st w =
      if 0 < (st.g_dict.getD w zero_word).max_chain_length then
        some ((st.g_dict.getD w zero_word).max_chain_length, st)
      else
        match char_loop sc (find_longest_chain sc fuel) w (st.g_dict.getD w zero_word).canonical
            (st.g_dict.getD w zero_word).length candidate_chars
            (1, ⟨st.g_map, st.g_dict.set w
              { st.g_dict.getD w zero_word with num_next_steps := 0 }⟩) with
        | none => none
        | some (max_length, st1) =>
          some (max_length, ⟨st1.g_map, st1.g_dict.set w
            { st1.g_dict.getD w zero_word with max_chain_length := max_length }⟩) := rfl

theorem loop_max_eq (sc : Bool) (D : State) (hB : BuiltOK sc D) (w : Nat)
    (hw : w < D.g_dict.length) (st st1 : State) (ml1 : Nat)
    (hinv1 : LoopInv sc D w st st1 (search_ids sc D w) ml1) : ml1 = chain_len sc D w := by
  have h1 := hinv1.prog.maxv
  rw [chain_len_unfold sc D hB w hw]
  exact h1

/-- The body of `find_longest_chain` meets the call specification when its
recursive calls do. -/
theorem flc_body (sc : Bool) (D : State) (hB : BuiltOK sc D) (fuel L : Nat)
    (hcall : CallSpec sc D (find_longest_chain sc fuel) (L + 1)) :
    CallSpec sc D (find_longest_chain sc (fuel + 1)) L := by
  intro st w hw hwl hinv
  subst hwl
  have hstat := hinv.static w hw
  have hwl : w < st.g_dict.length := by rw [hinv.len]; exact hw
  rw [flc_succ]
  by_cases hm : 0 < (st.g_dict.getD w zero_word).max_chain_length
  · rw [if_pos hm]
    refine ⟨st, ?_, hinv, hm, fun _ _ _ => rfl⟩
    rw [(hinv.ok w hw (le_refl _) hm).value]
  · rw [if_neg hm]
    have hm0 : (st.g_dict.getD w zero_word).max_chain_length = 0 := by omega
    rw [hstat.2.1, hstat.2.2.2]
    have hinit : LoopInv sc D w st
        ⟨st.g_map, st.g_dict.set w { st.g_dict.getD w zero_word with num_next_steps := 0 }⟩
        [] 1 := by
      constructor
      · exact pinv_set sc D st w hw _ (by omega) _ (pinv_mono sc D st _ _ (by omega) hinv)
          ⟨rfl, rfl, rfl, rfl⟩ rfl (hinv.room w hw)
      · simp only
        rw [getD_set_self _ _ _ hwl]
        exact hm0
      · simp only
        rw [getD_set_self _ _ _ hwl]
        exact prog_init _ _ rfl (hinv.room w hw)
      · intro v hv
        simp at hv
      · intro i _ hne _
        simp only
        rw [getD_set_ne _ _ _ _ hne]
    obtain ⟨ml1, st1, hc, hinv1⟩ := char_loop_ok sc D hB (find_longest_chain sc fuel) w hw st
      hcall candidate_chars [] 1 _ hinit
    rw [hc]
    rw [List.nil_append] at hinv1
    simp only
    have hml : ml1 = chain_len sc D w := loop_max_eq sc D hB w hw _ _ _ hinv1
    subst hml
    have hpos : 0 < chain_len sc D w := chain_len_pos sc D hB w hw
    have hwl1 : w < st1.g_dict.length := by rw [hinv1.inv.len]; exact hw
    have hvalid := search_ids_valid sc D hB w hw
    refine ⟨_, rfl, ?_, ?_, ?_⟩
    · constructor
      · exact hinv1.inv.map
      · simp [hinv1.inv.len]
      · intro i hi
        simp only
        by_cases h : i = w
        · subst h
          rw [getD_set_self _ _ _ hwl1]
          exact hinv1.inv.static i hi
        · rw [getD_set_ne _ _ _ _ h]
          exact hinv1.inv.static i hi
      · intro i hi
        simp only
        by_cases h : i = w
        · subst h
          rw [getD_set_self _ _ _ hwl1]
          exact hinv1.inv.room i hi
        · rw [getD_set_ne _ _ _ _ h]
          exact hinv1.inv.room i hi
      · intro i hi hLi hposi
        simp only at hposi
        by_cases h : i = w
        · subst h
          constructor
          · simp only
            rw [getD_set_self _ _ _ hwl1]
          · simp only
            rw [getD_set_self _ _ _ hwl1]
            exact hinv1.prog.steps
          · simp only
            rw [getD_set_self _ _ _ hwl1]
            exact hinv1.prog.next
          · intro v hv
            have hvi : v ≠ i := by
              intro h
              have := (hvalid v hv).2.1
              rw [h] at this
              omega
            simp only
            rw [getD_set_ne _ _ _ _ hvi]
            exact hinv1.done v hv
        · rw [getD_set_ne _ _ _ _ h] at hposi
          have hmono : ∀ u ∈ search_ids sc D i,
              0 < (st1.g_dict.getD u zero_word).max_chain_length →
              0 < ((st1.g_dict.set w { st1.g_dict.getD w zero_word with
                max_chain_length := chain_len sc D w }).getD u zero_word).max_chain_length := by
            intro u _ hu
            by_cases huw : u = w
            · subst huw
              rw [getD_set_self _ _ _ hwl1]
              exact hpos
            · rw [getD_set_ne _ _ _ _ huw]
              exact hu
          by_cases hlen : (D.g_dict.getD w zero_word).length + 1 ≤ (D.g_dict.getD i zero_word).length
          · apply entryOK_transfer sc D st1 _ i (hinv1.inv.ok i hi hlen hposi)
            · simp only
              rw [getD_set_ne _ _ _ _ h]
            · exact hmono
          · have heq := hinv1.frame i hi h (Or.inl (by omega))
            rw [heq] at hposi
            have hok := hinv.ok i hi hLi hposi
            have hok1 : EntryOK sc D st1 i := by
              apply entryOK_transfer sc D st st1 i hok heq
              intro u hu hupos
              have hun := (search_ids_valid sc D hB i hi u hu).1
              have huw : u ≠ w := by
                intro h'
                rw [h'] at hupos
                omega
              rw [hinv1.frame u hun huw (Or.inr hupos)]
              exact hupos
            apply entryOK_transfer sc D st1 _ i hok1
            · simp only
              rw [getD_set_ne _ _ _ _ h]
            · exact hmono
    · simp only
      rw [getD_set_self _ _ _ hwl1]
      exact hpos
    · intro i hi hcond
      have hne : i ≠ w := by
        intro h
        subst h
        rcases hcond with h | h <;> omega
      simp only
      rw [getD_set_ne _ _ _ _ hne]
      apply hinv1.frame i hi hne
      rcases hcond with h | h
      · left; omega
      · right; exact h

/-- With fuel beyond what the word length leaves, `find_longest_chain` meets the
call specification. -/
theorem flc_spec (sc : Bool) (D : State) (hB : BuiltOK sc D) :
    ∀ (fuel L : Nat), MAX_WORD_LEN < fuel + L → CallSpec sc D (find_longest_chain sc fuel) L
  | 0, L, h => by
    intro st v hv hvl _
    have := (fresh_at sc D hB v hv).len_le
    omega
  | fuel + 1, L, h =>
    flc_body sc D hB fuel L (flc_spec sc D hB fuel (L + 1) (by omega))

/-! ## More fuel does not change a result -/

theorem group_loop_mono (call call1 : State → Nat → Option (Nat × State))
    (h : ∀ st v x, call st v = some x → call1 st v = some x) (w wi : Nat) :
    ∀ (is : List Nat) (acc y : Nat × State),
      group_loop call w wi is acc = some y → group_loop call1 w wi is acc = some y
  | [], acc, y, hy => by simpa [group_loop] using hy
  | i :: rest, (ml, st), y, hy => by
    unfold group_loop at hy ⊢
    rcases hc : call st (wi + i) with _ | ⟨r, st1⟩
    · rw [hc] at hy
      simp at hy
    · rw [hc] at hy
      rw [h st (wi + i) _ hc]
      simp only at hy ⊢
      exact group_loop_mono call call1 h w wi rest _ y hy

theorem char_loop_mono (sc : Bool) (call call1 : State → Nat → Option (Nat × State))
    (h : ∀ st v x, call st v = some x → call1 st v = some x) (w : Nat) (can : List Nat)
    (len : Nat) :
    ∀ (cs : List Nat) (acc y : Nat × State),
      char_loop sc call w can len cs acc = some y → char_loop sc call1 w can len cs acc = some y
  | [], acc, y, hy => by simpa [char_loop] using hy
  | c :: rest, (ml, st), y, hy => by
    unfold char_loop at hy ⊢
    simp only at hy ⊢
    rcases hf : find_group sc st.g_map (canonicalize sc (write_candidate can len c))
      with _ | _ | g
    · rw [hf] at hy
      simp at hy
    · rw [hf] at hy
      simp only at hy ⊢
      exact char_loop_mono sc call call1 h w can len rest _ y hy
    · rw [hf] at hy
      simp only at hy ⊢
      rcases hg : group_loop call w g.word_index (List.range g.group_size) (ml, st) with _ | acc1
      · rw [hg] at hy
        simp at hy
      · rw [hg] at hy
        rw [group_loop_mono call call1 h w g.word_index _ _ _ hg]
        simp only at hy ⊢
        exact char_loop_mono sc call call1 h w can len rest _ y hy

theorem flc_mono_succ (sc : Bool) : ∀ (fuel : Nat) (st : State) (w : Nat) (x : Nat × State),
    find_longest_chain sc fuel st w = some x → find_longest_chain sc (fuel + 1) st w = some x
  | 0, st, w, x, h => by simp [find_longest_chain] at h
  | fuel + 1, st, w, x, h => by
    rw [flc_succ] at h ⊢
    by_cases hm : 0 < (st.g_dict.getD w zero_word).max_chain_length
    · rw [if_pos hm] at h ⊢
      exact h
    · rw [if_neg hm] at h ⊢
      rcases hc : char_loop sc (find_longest_chain sc fuel) w
          (st.g_dict.getD w zero_word).canonical (st.g_dict.getD w zero_word).length
          candidate_chars
          (1, ⟨st.g_map, st.g_dict.set w
            { st.g_dict.getD w zero_word with num_next_steps := 0 }⟩) with _ | y
      · rw [hc] at h
        simp at h
      · rw [hc] at h
        rw [char_loop_mono sc _ _ (flc_mono_succ sc fuel) w _ _ _ _ _ hc]
        exact h

theorem flc_mono (sc : Bool) (fuel : Nat) (st : State) (w : Nat) (x : Nat × State)
    (h : find_longest_chain sc fuel st w = some x) :
    ∀ k, find_longest_chain sc (fuel + k) st w = some x
  | 0 => h
  | k + 1 => flc_mono_succ sc (fuel + k) st w x (flc_mono sc fuel st w x h k)

/-! ## The invariant of the reachable states -/

theorem pinv_built (sc : Bool) (D : State) (hB : BuiltOK sc D) : PInv sc D D 0 where
  map := rfl
  len := rfl
  static := fun _ _ => ⟨rfl, rfl, rfl, rfl⟩
  room := fun i hi => by
    rw [(fresh_at sc D hB i hi).next]
    simp
  ok := fun i hi _ hpos => by
    rw [(fresh_at sc D hB i hi).memo] at hpos
    omega

/-- A completed call from an invariant state: the result, and the invariant after. -/
theorem flc_global (sc : Bool) (D : State) (hB : BuiltOK sc D) (st : State)
    (hinv : PInv sc D st 0) (w : Nat) (hw : w < D.g_dict.length) (fuel : Nat)
    (hfuel : MAX_WORD_LEN < fuel + (D.g_dict.getD w zero_word).length) :
    ∃ st1, find_longest_chain sc fuel st w = some (chain_len sc D w, st1) ∧ PInv sc D st1 0 ∧
      (st1.g_dict.getD w zero_word).max_chain_length = chain_len sc D w ∧
      Frame D st st1 (D.g_dict.getD w zero_word).length := by
  obtain ⟨st1, hc, hinv1, hpos, hframe⟩ := flc_spec sc D hB fuel _ hfuel st w hw rfl
    (pinv_mono sc D st 0 _ (Nat.zero_le _) hinv)
  refine ⟨st1, hc, ?_, (hinv1.ok w hw (le_refl _) hpos).value, hframe⟩
  constructor
  · exact hinv1.map
  · exact hinv1.len
  · exact hinv1.static
  · exact hinv1.room
  · intro i hi _ hposi
    by_cases hlen : (D.g_dict.getD w zero_word).length ≤ (D.g_dict.getD i zero_word).length
    · exact hinv1.ok i hi hlen hposi
    · have heq := hframe i hi (Or.inl (by omega))
      rw [heq] at hposi
      apply entryOK_transfer sc D st st1 i (hinv.ok i hi (Nat.zero_le _) hposi) heq
      intro u hu hupos
      have hun := (search_ids_valid sc D hB i hi u hu).1
      rw [hframe u hun (Or.inr hupos)]
      exact hupos

theorem reachable_inv (sc : Bool) (D : State) (hB : BuiltOK sc D) (st : State)
    (h : Reachable sc D st) : PInv sc D st 0 := by
  induction h with
  | built => exact pinv_built sc D hB
  | call st st1 fuel w r _ hw hc ih =>
    obtain ⟨st2, hc2, hinv2, _, _⟩ := flc_global sc D hB st ih w hw (fuel + (MAX_WORD_LEN + 1))
      (by omega)
    have := flc_mono sc fuel st w _ hc (MAX_WORD_LEN + 1)
    rw [hc2] at this
    have hst : st2 = st1 := by
      have := Option.some.inj this
      exact (Prod.mk.inj this).2
    rw [← hst]
    exact hinv2

/-! ## The enumerator -/

theorem range_map_getD (l : List Nat) : ∀ (n : Nat), n ≤ l.length →
    (List.range n).map (fun i => l.getD i 0) = l.take n
  | 0, _ => by simp
  | n + 1, h => by
    rw [List.range_succ, List.map_append, range_map_getD l n (by omega), List.take_succ]
    have : n < l.length := by omega
    simp [List.getD, List.getElem?_eq_getElem this]

theorem print_loop_ok (call : Nat → Option (List (List (List Nat))))
    (Q : Nat → List (List Nat) → Prop) :
    ∀ (vs : List Nat),
      (∀ v ∈ vs, ∃ out, call v = some out ∧ out ≠ [] ∧ ∀ p ∈ out, Q v p) →
      ∃ outs, print_loop call vs = some outs ∧ (vs ≠ [] → outs ≠ []) ∧
        ∀ p ∈ outs, ∃ v ∈ vs, Q v p
  | [], _ => ⟨[], rfl, by simp, by simp⟩
  | v :: rest, h => by
    obtain ⟨out, hc, hne, hq⟩ := h v (by simp)
    obtain ⟨outs, hl, _, hqs⟩ := print_loop_ok call Q rest (fun u hu => h u (by simp [hu]))
    refine ⟨out ++ outs, ?_, ?_, ?_⟩
    · simp [print_loop, hc, hl]
    · intro _
      simp [hne]
    · intro p hp
      rcases List.mem_append.mp hp with hp | hp
      · exact ⟨v, by simp, hq p hp⟩
      · obtain ⟨u, hu, hqu⟩ := hqs p hp
        exact ⟨u, by simp [hu], hqu⟩

theorem pac_succ (g_dict : List DictWord) (fuel w : Nat) (path : List (List Nat)) :
    print_all_chains g_dict (fuel + 1) w path =
      if (g_dict.getD w zero_word).num_next_steps = 0 then
        some [path ++ [(g_dict.getD w zero_word).word]]
      else
        print_loop (fun v => print_all_chains g_dict fuel v
            (path ++ [(g_dict.getD w zero_word).word]))
          ((List.range (g_dict.getD w zero_word).num_next_steps).map
            (fun i => (g_dict.getD w zero_word).next_in_chain.getD i 0)) := rfl

theorem best_ids_nonempty (sc : Bool) (D : State) (hB : BuiltOK sc D) (w : Nat)
    (hw : w < D.g_dict.length) (h : best_ids sc D w = []) : chain_len sc D w = 1 := by
  have hun := chain_len_unfold sc D hB w hw
  rcases foldl_max_attained (fun v => 1 + chain_len sc D v) (search_ids sc D w) 1 with h1 | ⟨v, hv, h1⟩
  · rw [hun]
    exact h1
  · exfalso
    have : v ∈ best_ids sc D w := by
      unfold best_ids
      rw [List.mem_filter]
      refine ⟨hv, ?_⟩
      simp only [decide_eq_true_eq]
      rw [hun]
      exact h1.symm
    rw [h] at this
    simp at this

/-- The relation between consecutive entries of an enumerated chain. -/
theorem print_ok (sc : Bool) (D : State) (hB : BuiltOK sc D) (st : State)
    (hinv : PInv sc D st 0) :
    ∀ (fuel w : Nat) (path : List (List Nat)), w < D.g_dict.length →
      0 < (st.g_dict.getD w zero_word).max_chain_length →
      (st.g_dict.getD w zero_word).max_chain_length ≤ fuel →
      ∃ outs, print_all_chains st.g_dict fuel w path = some outs ∧ outs ≠ [] ∧
        ∀ p ∈ outs, ∃ ids : List Nat,
          p = path ++ ids.map (fun i => (D.g_dict.getD i zero_word).word) ∧
          ids.length = (st.g_dict.getD w zero_word).max_chain_length ∧
          ids.head? = some w ∧
          List.Chain' (fun u v => u < D.g_dict.length ∧ v ∈ best_ids sc D u) ids
  | 0, w, path, _, hpos, hle => by omega
  | fuel + 1, w, path, hw, hpos, hle => by
    have hok := hinv.ok w hw (Nat.zero_le _) hpos
    have hword : (st.g_dict.getD w zero_word).word = (D.g_dict.getD w zero_word).word :=
      (hinv.static w hw).1
    rw [pac_succ]
    by_cases h0 : (st.g_dict.getD w zero_word).num_next_steps = 0
    · rw [if_pos h0]
      have hbest : best_ids sc D w = [] := by
        have := hok.steps
        rw [h0] at this
        have h1 : (best_ids sc D w).length = 0 := by
          unfold MAX_NEXT_STEPS at this
          omega
        exact List.length_eq_zero.mp h1
      have hk : (st.g_dict.getD w zero_word).max_chain_length = 1 := by
        rw [hok.value]
        exact best_ids_nonempty sc D hB w hw hbest
      refine ⟨_, rfl, by simp, ?_⟩
      intro p hp
      simp only [List.mem_singleton] at hp
      refine ⟨[w], ?_, ?_, rfl, by simp⟩
      · rw [hp, hword]
        simp
      · rw [hk]
        simp
    · rw [if_neg h0]
      have hsteps := hok.steps
      have hroom := hinv.room w hw
      rw [range_map_getD _ _ (by rw [hroom, hsteps]; exact Nat.min_le_left _ _), hok.next]
      have hall : ∀ v ∈ (best_ids sc D w).take MAX_NEXT_STEPS,
          ∃ out, print_all_chains st.g_dict fuel v
              (path ++ [(st.g_dict.getD w zero_word).word]) = some out ∧ out ≠ [] ∧
            ∀ p ∈ out, ∃ ids : List Nat,
              p = path ++ ids.map (fun i => (D.g_dict.getD i zero_word).word) ∧
              ids.length = (st.g_dict.getD w zero_word).max_chain_length ∧
              ids.head? = some w ∧
              List.Chain' (fun u v => u < D.g_dict.length ∧ v ∈ best_ids sc D u) ids := by
        intro v hv
        have hvb : v ∈ best_ids sc D w := List.mem_of_mem_take hv
        have hvb' := hvb
        unfold best_ids at hvb'
        rw [List.mem_filter] at hvb'
        obtain ⟨hvs, hval⟩ := hvb'
        simp only [decide_eq_true_eq] at hval
        have hvn := (search_ids_valid sc D hB w hw v hvs).1
        have hvpos := hok.closed v hvs
        have hvval := (hinv.ok v hvn (Nat.zero_le _) hvpos).value
        have hwval := hok.value
        obtain ⟨out, hc, hne, hq⟩ := print_ok sc D hB st hinv fuel v
          (path ++ [(st.g_dict.getD w zero_word).word]) hvn hvpos (by omega)
        refine ⟨out, hc, hne, ?_⟩
        intro p hp
        obtain ⟨ids, hpe, hlen, hhead, hchain⟩ := hq p hp
        refine ⟨w :: ids, ?_, ?_, rfl, ?_⟩
        · rw [hpe, hword]
          simp
        · simp only [List.length_cons, hlen]
          omega
        · cases ids with
          | nil => simp at hhead
          | cons a rest =>
            simp only [List.head?_cons, Option.some.injEq] at hhead
            subst hhead
            exact List.Chain'.cons ⟨hw, hvb⟩ hchain
      obtain ⟨outs, hl, hne, hqs⟩ := print_loop_ok _ _ _ hall
      refine ⟨outs, hl, ?_, ?_⟩
      · apply hne
        intro hnil
        have h1 : ((best_ids sc D w).take MAX_NEXT_STEPS).length = 0 := by rw [hnil]; rfl
        rw [List.length_take] at h1
        omega
      · intro p hp
        obtain ⟨_, _, hq⟩ := hqs p hp
        exact hq

theorem best_step (sc : Bool) (D : State) (hB : BuiltOK sc D) (u v : Nat)
    (hu : u < D.g_dict.length) (hv : v ∈ best_ids sc D u) :
    (∃ c, c ∈ candidate_chars ∧
      canonicalize sc (D.g_dict.getD v zero_word).word
        = canonicalize sc (canonicalize sc (D.g_dict.getD u zero_word).word ++ [c])) ∧
    (D.g_dict.getD v zero_word).word.length = (D.g_dict.getD u zero_word).word.length + 1 := by
  unfold best_ids at hv
  rw [List.mem_filter] at hv
  obtain ⟨hvn, hlen, c, hc, hcan⟩ := search_ids_valid sc D hB u hu v hv.1
  have hfu := fresh_at sc D hB u hu
  have hfv := fresh_at sc D hB v hvn
  refine ⟨⟨c, hc, ?_⟩, ?_⟩
  · rw [← hfv.canon, ← hfu.canon]
    exact hcan
  · rw [← hfv.len, ← hfu.len]
    exact hlen

/-! ## Successors -/

theorem tables_of_load (sc : Bool) (lines : List (List Nat)) (D : State)
    (h : load_and_preprocess_dictionary sc lines = some (some D)) :
    tables_of (load_and_preprocess_dictionary sc lines) = D := by
  rw [h]
  rfl

theorem load_tables_of (sc : Bool) (lines : List (List Nat))
    (h : (read_words sc lines []).length ≠ 0) :
    load_and_preprocess_dictionary sc lines
      = some (some (tables_of (load_and_preprocess_dictionary sc lines))) := by
  obtain ⟨D, hD, _⟩ := load_ok sc lines h
  rw [tables_of_load sc lines D hD]
  exact hD

theorem built_a_at_load :
    load_and_preprocess_dictionary true lines_a_at = some (some built_a_at) :=
  load_tables_of true lines_a_at (by decide)

theorem built_at_so_ta_load :
    load_and_preprocess_dictionary true lines_at_so_ta = some (some built_at_so_ta) :=
  load_tables_of true lines_at_so_ta (by decide)

theorem searched_a_at_call :
    find_longest_chain true 256 built_a_at 0
      = some (chain_len true built_a_at 0, searched_a_at) := by
  have hB := (built_of_load true lines_a_at built_a_at built_a_at_load).1
  obtain ⟨st1, hc, _⟩ := flc_global true built_a_at hB built_a_at (pinv_built true _ hB) 0
    (by decide) 256 (by unfold MAX_WORD_LEN; omega)
  have : searched_a_at = st1 := by
    unfold searched_a_at
    rw [hc]
    rfl
  rw [this]
  exact hc

theorem searched_a_at_reachable : Reachable true built_a_at searched_a_at :=
  Reachable.call built_a_at searched_a_at 256 0 _ Reachable.built (by decide)
    searched_a_at_call

/-! ## The claims -/

/-- C2, evaluated on the word list "a", "at", "so", "ta" with start "a": the
program reports maximum length 2 and prints the single chain a, at; the chain
a, ta, made of dictionary words with "ta" one inserted character after "a", is not
printed. -/
theorem C2_missing_chain :
    (main true 256 lines_a_at_so_ta [97]).map (fun r => r.1)
      = some (Outcome.chains 2 [[[97], [97, 116]]]) ∧
    [97] ∈ valid_words lines_a_at_so_ta ∧ [116, 97] ∈ valid_words lines_a_at_so_ta ∧
    canonicalize true [116, 97] = canonicalize true (canonicalize true [97] ++ [116]) := by
  decide

/-- C3: in every state reached by completed searches on built tables, for a computed
entry `start`, `print_all_chains(start)` returns (with fuel at least the chain length)
and every sequence it prints has exactly `max_chain_length[start]` words. -/
theorem C3_chain_word_count (sc : Bool) (lines : List (List Nat)) (D : State)
    (hload : load_and_preprocess_dictionary sc lines = some (some D)) (st : State)
    (hreach : Reachable sc D st) (start : Nat) (hstart : start < D.g_dict.length)
    (hcomp : 0 < (st.g_dict.getD start zero_word).max_chain_length) (fuel : Nat)
    (hfuel : (st.g_dict.getD start zero_word).max_chain_length ≤ fuel) :
    ∃ outs, print_all_chains st.g_dict fuel start [] = some outs ∧ outs ≠ [] ∧
      ∀ p ∈ outs, p.length = (st.g_dict.getD start zero_word).max_chain_length := by
  have hB := (built_of_load sc lines D hload).1
  obtain ⟨outs, hp, hne, hq⟩ := print_ok sc D hB st (reachable_inv sc D hB st hreach) fuel
    start [] hstart hcomp hfuel
  refine ⟨outs, hp, hne, ?_⟩
  intro p hpm
  obtain ⟨ids, hpe, hlen, _, _⟩ := hq p hpm
  rw [hpe]
  simpa using hlen

/-- Witness of C3: the tables of "a", "at" after the search from "a". -/
theorem C3_chain_word_count_witness :
    ∃ outs, print_all_chains searched_a_at.g_dict 2 0 [] = some outs ∧ outs ≠ [] ∧
      ∀ p ∈ outs, p.length = (searched_a_at.g_dict.getD 0 zero_word).max_chain_length :=
  C3_chain_word_count true lines_a_at built_a_at built_a_at_load searched_a_at
    searched_a_at_reachable 0 (by decide) (by decide) 2 (by decide)

/-- C4: in every sequence printed by `print_all_chains(start)` for a computed entry,
each adjacent pair of words (u, v) satisfies: the signature of v is the canonical form
of the signature of u followed by one character (in 33..126), and v is one character
longer than u. -/
theorem C4_adjacent_one_insertion (sc : Bool) (lines : List (List Nat)) (D : State)
    (hload : load_and_preprocess_dictionary sc lines = some (some D)) (st : State)
    (hreach : Reachable sc D st) (start : Nat) (hstart : start < D.g_dict.length)
    (hcomp : 0 < (st.g_dict.getD start zero_word).max_chain_length) (fuel : Nat)
    (hfuel : (st.g_dict.getD start zero_word).max_chain_length ≤ fuel) :
    ∃ outs, print_all_chains st.g_dict fuel start [] = some outs ∧
      ∀ p ∈ outs, List.Chain' (fun u v =>
        (∃ c, c ∈ candidate_chars ∧
          canonicalize sc v = canonicalize sc (canonicalize sc u ++ [c])) ∧
        v.length = u.length + 1) p := by
  have hB := (built_of_load sc lines D hload).1
  obtain ⟨outs, hp, _, hq⟩ := print_ok sc D hB st (reachable_inv sc D hB st hreach) fuel
    start [] hstart hcomp hfuel
  refine ⟨outs, hp, ?_⟩
  intro p hpm
  obtain ⟨ids, hpe, _, _, hchain⟩ := hq p hpm
  rw [hpe, List.nil_append, List.chain'_map]
  exact hchain.imp (fun u v h => best_step sc D hB u v h.1 h.2)

/-- Witness of C4: the tables of "a", "at" after the search from "a". -/
theorem C4_adjacent_one_insertion_witness :
    ∃ outs, print_all_chains searched_a_at.g_dict 2 0 [] = some outs ∧
      ∀ p ∈ outs, List.Chain' (fun u v =>
        (∃ c, c ∈ candidate_chars ∧
          canonicalize true v = canonicalize true (canonicalize true u ++ [c])) ∧
        v.length = u.length + 1) p :=
  C4_adjacent_one_insertion true lines_a_at built_a_at built_a_at_load searched_a_at
    searched_a_at_reachable 0 (by decide) (by decide) 2 (by decide)

/-- C5: for a word list with at least one and at most `MAX_DICT_SIZE` valid words the
load succeeds, and for every starting word `s` the lookup of its signature ends, and
gives no group exactly when no surviving word has the signature of `s`; then `main`
reports "not found" and exits with the tables as built, every memo field 0. -/
theorem C5_lookup_miss (sc : Bool) (lines : List (List Nat)) (s : List Nat)
    (hsome : 1 ≤ (valid_words lines).length)
    (hmax : (valid_words lines).length ≤ MAX_DICT_SIZE) :
    ∃ D, load_and_preprocess_dictionary sc lines = some (some D) ∧
      find_group sc D.g_map (canonicalize sc s) ≠ none ∧
      (find_group sc D.g_map (canonicalize sc s) = some none ↔
        ∀ w ∈ valid_words lines, canonicalize sc w ≠ canonicalize sc s) ∧
      (find_group sc D.g_map (canonicalize sc s) = some none →
        ∀ fuel, main sc fuel lines s = some (Outcome.not_found, D)) ∧
      ∀ e ∈ D.g_dict, e.max_chain_length = 0 := by
  have hwords := read_words_words sc lines [] (by simpa using hmax)
  simp only [List.map_nil, List.nil_append] at hwords
  have hlen : (read_words sc lines []).length ≠ 0 := by
    have := congrArg List.length hwords
    rw [List.length_map] at this
    omega
  obtain ⟨D, hD, hB, hperm⟩ := load_ok sc lines hlen
  have hmem : ∀ w, w ∈ valid_words lines ↔ ∃ e ∈ D.g_dict, e.word = w := by
    intro w
    rw [← hwords, List.mem_map]
    constructor
    · rintro ⟨e, he, rfl⟩
      exact ⟨e, hperm.mem_iff.mpr he, rfl⟩
    · rintro ⟨e, he, rfl⟩
      exact ⟨e, hperm.mem_iff.mp he, rfl⟩
  refine ⟨D, hD, ?_, ?_, ?_, fun e he => (hB.entries e he).memo⟩
  · rcases hB.total (canonicalize sc s) with ⟨g, hf⟩ | ⟨hf, _⟩ <;> rw [hf] <;> simp
  · constructor
    · intro hf w hw hcan
      obtain ⟨e, he, rfl⟩ := (hmem w).mp hw
      rcases hB.total (canonicalize sc s) with ⟨g, hg⟩ | ⟨_, hno⟩
      · rw [hg] at hf
        simp at hf
      · exact hno e he (by rw [(hB.entries e he).canon, hcan])
    · intro hall
      rcases hB.total (canonicalize sc s) with ⟨g, hg⟩ | ⟨hf, _⟩
      · exfalso
        obtain ⟨h1, h2, h3⟩ := hB.hit _ g hg
        have hin : g.word_index < D.g_dict.length := by omega
        have he := getD_mem D.g_dict g.word_index hin
        have hcan := h3 g.word_index (le_refl _) (by omega)
        rw [(hB.entries _ he).canon] at hcan
        exact hall _ ((hmem _).mpr ⟨_, he, rfl⟩) hcan
      · exact hf
  · intro hf fuel
    unfold main
    rw [hD]
    simp only
    rw [hf]

/-- Witness of C5: the word list "a", "at" and the starting word "zzz". -/
theorem C5_lookup_miss_witness :
    ∃ D, load_and_preprocess_dictionary true lines_a_at = some (some D) ∧
      find_group true D.g_map (canonicalize true [122, 122, 122]) ≠ none ∧
      (find_group true D.g_map (canonicalize true [122, 122, 122]) = some none ↔
        ∀ w ∈ valid_words lines_a_at, canonicalize true w ≠ canonicalize true [122, 122, 122]) ∧
      (find_group true D.g_map (canonicalize true [122, 122, 122]) = some none →
        ∀ fuel, main true fuel lines_a_at [122, 122, 122] = some (Outcome.not_found, D)) ∧
      ∀ e ∈ D.g_dict, e.max_chain_length = 0 :=
  C5_lookup_miss true lines_a_at [122, 122, 122] (by decide) (by decide)

/-- C6: for strings of single-byte characters, two strings have equal canonical forms
exactly when one is a permutation of the other, and canonicalising twice gives the
same as once. -/
theorem C6_canonical_iff_perm (sc : Bool) (a b : List Nat) (ha : ∀ x ∈ a, x < 256) :
    (canonicalize sc a = canonicalize sc b ↔ a.Perm b) ∧
    (∀ p : List Nat, p.Perm a → canonicalize sc p = canonicalize sc a) ∧
    canonicalize sc (canonicalize sc a) = canonicalize sc a :=
  ⟨⟨perm_of_canonicalize_eq sc, canonicalize_eq_of_perm sc ha⟩,
    fun _ hp => (canonicalize_eq_of_perm sc ha hp.symm).symm, canonicalize_idem sc a⟩

/-- Witness of C6: "tea" and "ate". -/
theorem C6_canonical_iff_perm_witness :
    (canonicalize true [116, 101, 97] = canonicalize true [97, 116, 101] ↔
      List.Perm [116, 101, 97] [97, 116, 101]) ∧
    (∀ p : List Nat, p.Perm [116, 101, 97] →
      canonicalize true p = canonicalize true [116, 101, 97]) ∧
    canonicalize true (canonicalize true [116, 101, 97]) = canonicalize true [116, 101, 97] :=
  C6_canonical_iff_perm true [116, 101, 97] [97, 116, 101] (by decide)

/-- C7 as stated fails where plain `char` is signed: the bytes 233, 97 are left in
this order by `canonicalize`, which is not ascending by code point. -/
theorem C7_signed_char_counterexample :
    ([233, 97] : List Nat) ≠ [] ∧ ([233, 97] : List Nat).length ≤ MAX_WORD_LEN ∧
    (∀ b ∈ ([233, 97] : List Nat), b < 256) ∧
    canonicalize true [233, 97] = [233, 97] ∧
    ¬ List.Sorted (fun a b : Nat => a ≤ b) (canonicalize true [233, 97]) := by
  decide

/-- C7 amended: `canonicalize(w)` is a permutation of `w` sorted ascending under
`compare_chars`, that is, by the value of each byte read as plain `char`; this is the
ascending order of the code points when plain `char` is unsigned or every byte of `w`
is below 128. -/
theorem C7_sorted_by_char_value (sc : Bool) (w : List Nat) :
    (canonicalize sc w).Perm w ∧
    (canonicalize sc w).Sorted (fun a b => compare_chars sc a b ≤ 0) ∧
    (canonicalize sc w).Sorted (fun a b => char_val sc a ≤ char_val sc b) ∧
    ((sc = false ∨ ∀ b ∈ w, b < 128) →
      (canonicalize sc w).Sorted (fun a b : Nat => a ≤ b)) := by
  have hs := canonicalize_sorted sc w
  have hv : (canonicalize sc w).Sorted (fun a b => char_val sc a ≤ char_val sc b) := by
    simpa only [compare_chars_le_iff] using hs
  refine ⟨canonicalize_perm sc w, hs, hv, ?_⟩
  intro h
  unfold List.Sorted at hv ⊢
  apply hv.imp_of_mem
  intro a b ha hb hab
  rcases h with h | h
  · subst h
    simpa [char_val] using hab
  · rw [char_val_small sc (h a ((canonicalize_mem sc w a).mp ha)),
      char_val_small sc (h b ((canonicalize_mem sc w b).mp hb))] at hab
    exact_mod_cast hab

/-- Witness of C7 amended: "tea" with signed plain `char` is sorted by code point. -/
theorem C7_sorted_by_char_value_witness :
    (canonicalize true [116, 101, 97]).Perm [116, 101, 97] ∧
    (canonicalize true [116, 101, 97]).Sorted (fun a b : Nat => a ≤ b) :=
  ⟨(C7_sorted_by_char_value true [116, 101, 97]).1,
    (C7_sorted_by_char_value true [116, 101, 97]).2.2.2 (Or.inr (by decide))⟩

/-- C8: starting from the empty table, any sequence of fewer than `HASH_TABLE_SIZE`
`insert_group` calls with pairwise distinct signatures completes; after the calls
`calls`, and still after the further calls `later`, `find_group` returns for every
inserted signature the entry inserted under it, and no group for every signature that
was not inserted. -/
theorem C8_index_lookup (sc : Bool) (calls later : List (List Nat × Nat × Nat))
    (hdistinct : ((calls ++ later).map (fun e => e.1)).Nodup)
    (hfew : (calls ++ later).length < HASH_TABLE_SIZE) :
    ∃ m m1, insert_all sc calls empty_map = some m ∧ insert_all sc later m = some m1 ∧
      (∀ e ∈ calls, find_group sc m e.1 = some (some ⟨e.1, e.2.1, e.2.2, true⟩) ∧
        find_group sc m1 e.1 = some (some ⟨e.1, e.2.1, e.2.2, true⟩)) ∧
      (∀ k, k ∉ calls.map (fun e => e.1) → find_group sc m k = some none) ∧
      (∀ k, k ∉ (calls ++ later).map (fun e => e.1) → find_group sc m1 k = some none) := by
  simp only [List.length_append] at hfew
  obtain ⟨m, hm, hinv⟩ := insert_all_ok sc calls empty_map [] (tableInv_empty sc)
    (by simp only [List.length_nil]; omega)
  rw [List.nil_append] at hinv
  obtain ⟨m1, hm1, hinv1⟩ := insert_all_ok sc later m _ hinv
    (by simp only [List.length_map]; omega)
  rw [← List.map_append] at hinv1
  have hnd : (calls.map (fun e => e.1)).Nodup := by
    rw [List.map_append] at hdistinct
    exact (List.nodup_append.mp hdistinct).1
  have h1 := find_group_distinct sc m calls hinv (by omega) hnd
  have h2 := find_group_distinct sc m1 (calls ++ later) hinv1
    (by simp only [List.length_append]; omega) hdistinct
  exact ⟨m, m1, hm, hm1, fun e he => ⟨h1.1 e he, h2.1 e (List.mem_append_left _ he)⟩,
    h1.2, h2.2⟩

/-- Witness of C8: the signatures "at" and "aet" inserted, then "os". -/
theorem C8_index_lookup_witness :
    ∃ m m1, insert_all true [([97, 116], 0, 1), ([97, 101, 116], 1, 2)] empty_map = some m ∧
      insert_all true [([111, 115], 3, 1)] m = some m1 ∧
      (∀ e ∈ [(([97, 116] : List Nat), 0, 1), ([97, 101, 116], 1, 2)],
        find_group true m e.1 = some (some ⟨e.1, e.2.1, e.2.2, true⟩) ∧
        find_group true m1 e.1 = some (some ⟨e.1, e.2.1, e.2.2, true⟩)) ∧
      (∀ k, k ∉ [(([97, 116] : List Nat), 0, 1), ([97, 101, 116], 1, 2)].map (fun e : List Nat × Nat × Nat => e.1) →
        find_group true m k = some none) ∧
      (∀ k, k ∉ ([(([97, 116] : List Nat), 0, 1), ([97, 101, 116], 1, 2)]
          ++ [([111, 115], 3, 1)]).map (fun e : List Nat × Nat × Nat => e.1) → find_group true m1 k = some none) :=
  C8_index_lookup true [([97, 116], 0, 1), ([97, 101, 116], 1, 2)] [([111, 115], 3, 1)]
    (by decide) (by decide)

/-- C9, evaluated on the word list "at", "so", "ta": the built table is ordered by
the words, and its signatures at, os, at are not in ascending order (`strcmp` of
the second with the third is positive), so the two entries of signature "at" are not
contiguous. -/
theorem C9_table_ordered_by_word :
    built_at_so_ta.g_dict.map (fun e => e.word) = [[97, 116], [115, 111], [116, 97]] ∧
    built_at_so_ta.g_dict.map (fun e => e.canonical) = [[97, 116], [111, 115], [97, 116]] ∧
    0 < strcmp [111, 115] [97, 116] := by
  decide

/-- C10, evaluated on the word list "at", "so", "ta": entries 0 and 2 have the same
signature "at", yet the index holds two occupied slots with that key, one for the
range of entry 0 and one for the range of entry 2, and `find_group` returns the
first. -/
theorem C10_signature_in_two_groups :
    (built_at_so_ta.g_dict.getD 0 zero_word).canonical
      = (built_at_so_ta.g_dict.getD 2 zero_word).canonical ∧
    find_group true built_at_so_ta.g_map [97, 116] = some (some ⟨[97, 116], 0, 1, true⟩) ∧
    built_at_so_ta.g_map (home true [97, 116]) = ⟨[97, 116], 0, 1, true⟩ ∧
    built_at_so_ta.g_map ((home true [97, 116] + 1) % HASH_TABLE_SIZE)
      = ⟨[97, 116], 2, 1, true⟩ := by
  decide

/-! ## Stored next steps of computed entries -/

theorem getD_mem_take (l : List Nat) (n i : Nat) (hn : n ≤ l.length) (hi : i < n) :
    l.getD i 0 ∈ l.take n := by
  rw [← range_map_getD l n hn]
  exact List.mem_map.mpr ⟨i, List.mem_range.mpr hi, rfl⟩

theorem steps_le_room (sc : Bool) (D st : State) (hinv : PInv sc D st 0) (w : Nat)
    (hw : w < D.g_dict.length)
    (hpos : 0 < (st.g_dict.getD w zero_word).max_chain_length) :
    (st.g_dict.getD w zero_word).num_next_steps
      ≤ (st.g_dict.getD w zero_word).next_in_chain.length := by
  rw [hinv.room w hw, (hinv.ok w hw (Nat.zero_le _) hpos).steps]
  exact Nat.min_le_left _ _

/-- A stored next step of a computed entry is a best successor, is computed, and its
stored chain length is one less. -/
theorem stored_step (sc : Bool) (D : State) (hB : BuiltOK sc D) (st : State)
    (hinv : PInv sc D st 0) (w : Nat) (hw : w < D.g_dict.length)
    (hpos : 0 < (st.g_dict.getD w zero_word).max_chain_length) (i : Nat)
    (hi : i < (st.g_dict.getD w zero_word).num_next_steps) :
    (st.g_dict.getD w zero_word).next_in_chain.getD i 0 ∈ best_ids sc D w ∧
    (st.g_dict.getD w zero_word).next_in_chain.getD i 0 < D.g_dict.length ∧
    1 + (st.g_dict.getD ((st.g_dict.getD w zero_word).next_in_chain.getD i 0)
      zero_word).max_chain_length = (st.g_dict.getD w zero_word).max_chain_length := by
  have hok := hinv.ok w hw (Nat.zero_le _) hpos
  have hmem := getD_mem_take _ _ i (steps_le_room sc D st hinv w hw hpos) hi
  rw [hok.next] at hmem
  have hb : (st.g_dict.getD w zero_word).next_in_chain.getD i 0 ∈ best_ids sc D w :=
    List.mem_of_mem_take hmem
  have hb1 := hb
  unfold best_ids at hb1
  rw [List.mem_filter] at hb1
  obtain ⟨hs, hval⟩ := hb1
  simp only [decide_eq_true_eq] at hval
  have hvn := (search_ids_valid sc D hB w hw _ hs).1
  have hvpos := hok.closed _ hs
  refine ⟨hb, hvn, ?_⟩
  rw [(hinv.ok _ hvn (Nat.zero_le _) hvpos).value, hok.value]
  exact hval

theorem steps_pos_of_long (sc : Bool) (D : State) (hB : BuiltOK sc D) (st : State)
    (hinv : PInv sc D st 0) (w : Nat) (hw : w < D.g_dict.length)
    (h1 : 1 < (st.g_dict.getD w zero_word).max_chain_length) :
    1 ≤ (st.g_dict.getD w zero_word).num_next_steps := by
  have hok := hinv.ok w hw (Nat.zero_le _) (by omega)
  rw [hok.steps]
  have hne : best_ids sc D w ≠ [] := by
    intro h
    have := best_ids_nonempty sc D hB w hw h
    rw [← hok.value] at this
    omega
  have : 1 ≤ (best_ids sc D w).length := by
    rcases hb : best_ids sc D w with _ | ⟨a, l⟩
    · exact absurd hb hne
    · simp
  unfold MAX_NEXT_STEPS
  omega

/-! ## The fan-out cap -/

theorem getD_steps_le (l : List DictWord) (w : Nat)
    (h : ∀ e ∈ l, e.num_next_steps ≤ MAX_NEXT_STEPS) :
    (l.getD w zero_word).num_next_steps ≤ MAX_NEXT_STEPS := by
  by_cases hw : w < l.length
  · exact h _ (getD_mem l w hw)
  · have : l.getD w zero_word = zero_word := by
      simp [List.getD, List.getElem?_eq_none (not_lt.mp hw)]
    rw [this]
    simp [zero_word]

theorem update_best_steps (w v cur ml : Nat) (g_dict : List DictWord)
    (h : ∀ e ∈ g_dict, e.num_next_steps ≤ MAX_NEXT_STEPS) :
    ∀ e ∈ (update_best w v cur ml g_dict).2, e.num_next_steps ≤ MAX_NEXT_STEPS := by
  unfold update_best
  simp only
  split_ifs with h1 h2 h3
  · intro e he
    rcases List.mem_or_eq_of_mem_set he with he | he
    · exact h e he
    · rw [he]
      simp [MAX_NEXT_STEPS]
  · intro e he
    rcases List.mem_or_eq_of_mem_set he with he | he
    · exact h e he
    · rw [he]
      simp only
      omega
  · exact h
  · exact h

theorem group_loop_steps (call : State → Nat → Option (Nat × State))
    (hcall : ∀ st v x, call st v = some x →
      (∀ e ∈ st.g_dict, e.num_next_steps ≤ MAX_NEXT_STEPS) →
      ∀ e ∈ x.2.g_dict, e.num_next_steps ≤ MAX_NEXT_STEPS) (w wi : Nat) :
    ∀ (is : List Nat) (acc y : Nat × State), group_loop call w wi is acc = some y →
      (∀ e ∈ acc.2.g_dict, e.num_next_steps ≤ MAX_NEXT_STEPS) →
      ∀ e ∈ y.2.g_dict, e.num_next_steps ≤ MAX_NEXT_STEPS
  | [], acc, y, hy, h => by
    simp only [group_loop, Option.some.injEq] at hy
    rw [← hy]
    exact h
  | i :: rest, (ml, st), y, hy, h => by
    unfold group_loop at hy
    rcases hc : call st (wi + i) with _ | ⟨r, st1⟩
    · rw [hc] at hy
      simp at hy
    · rw [hc] at hy
      simp only at hy
      apply group_loop_steps call hcall w wi rest _ y hy
      simp only
      exact update_best_steps _ _ _ _ _ (hcall st (wi + i) _ hc h)

theorem char_loop_steps (sc : Bool) (call : State → Nat → Option (Nat × State))
    (hcall : ∀ st v x, call st v = some x →
      (∀ e ∈ st.g_dict, e.num_next_steps ≤ MAX_NEXT_STEPS) →
      ∀ e ∈ x.2.g_dict, e.num_next_steps ≤ MAX_NEXT_STEPS) (w : Nat) (can : List Nat)
    (len : Nat) :
    ∀ (cs : List Nat) (acc y : Nat × State), char_loop sc call w can len cs acc = some y →
      (∀ e ∈ acc.2.g_dict, e.num_next_steps ≤ MAX_NEXT_STEPS) →
      ∀ e ∈ y.2.g_dict, e.num_next_steps ≤ MAX_NEXT_STEPS
  | [], acc, y, hy, h => by
    simp only [char_loop, Option.some.injEq] at hy
    rw [← hy]
    exact h
  | c :: rest, (ml, st), y, hy, h => by
    unfold char_loop at hy
    simp only at hy
    rcases hf : find_group sc st.g_map (canonicalize sc (write_candidate can len c))
      with _ | _ | g
    · rw [hf] at hy
      simp at hy
    · rw [hf] at hy
      simp only at hy
      exact char_loop_steps sc call hcall w can len rest _ y hy h
    · rw [hf] at hy
      simp only at hy
      rcases hg : group_loop call w g.word_index (List.range g.group_size) (ml, st) with _ | acc1
      · rw [hg] at hy
        simp at hy
      · rw [hg] at hy
        simp only at hy
        exact char_loop_steps sc call hcall w can len rest _ y hy
          (group_loop_steps call hcall w g.word_index _ _ _ hg h)

theorem flc_steps (sc : Bool) : ∀ (fuel : Nat) (st : State) (w : Nat) (x : Nat × State),
    find_longest_chain sc fuel st w = some x →
    (∀ e ∈ st.g_dict, e.num_next_steps ≤ MAX_NEXT_STEPS) →
    ∀ e ∈ x.2.g_dict, e.num_next_steps ≤ MAX_NEXT_STEPS
  | 0, st, w, x, h, _ => by simp [find_longest_chain] at h
  | fuel + 1, st, w, x, h, hq => by
    rw [flc_succ] at h
    by_cases hm : 0 < (st.g_dict.getD w zero_word).max_chain_length
    · rw [if_pos hm] at h
      simp only [Option.some.injEq] at h
      rw [← h]
      exact hq
    · rw [if_neg hm] at h
      rcases hc : char_loop sc (find_longest_chain sc fuel) w
          (st.g_dict.getD w zero_word).canonical (st.g_dict.getD w zero_word).length
          candidate_chars
          (1, ⟨st.g_map, st.g_dict.set w
            { st.g_dict.getD w zero_word with num_next_steps := 0 }⟩) with _ | y
      · rw [hc] at h
        simp at h
      · rw [hc] at h
        simp only [Option.some.injEq] at h
        have hq0 : ∀ e ∈ (st.g_dict.set w
            { st.g_dict.getD w zero_word with num_next_steps := 0 }),
            e.num_next_steps ≤ MAX_NEXT_STEPS := by
          intro e he
          rcases List.mem_or_eq_of_mem_set he with he | he
          · exact hq e he
          · rw [he]
            simp
        have hq1 := char_loop_steps sc _ (flc_steps sc fuel) w _ _ _ _ _ hc hq0
        rw [← h]
        intro e he
        rcases List.mem_or_eq_of_mem_set he with he | he
        · exact hq1 e he
        · rw [he]
          exact getD_steps_le _ w hq1

theorem reachable_steps (sc : Bool) (D : State) (hB : BuiltOK sc D) (st : State)
    (h : Reachable sc D st) : ∀ e ∈ st.g_dict, e.num_next_steps ≤ MAX_NEXT_STEPS := by
  induction h with
  | built =>
    intro e he
    rw [(hB.entries e he).steps]
    exact Nat.zero_le _
  | call st st1 fuel w r _ _ hc ih => exact flc_steps sc fuel st w _ hc ih

/-! ## Bounds on the chain length -/

theorem built_fan_load :
    load_and_preprocess_dictionary true lines_fan = some (some built_fan) :=
  load_tables_of true lines_fan (by decide!)

theorem fan_in_range : 0 < built_fan.g_dict.length := by decide!

theorem searched_fan_call :
    find_longest_chain true 256 built_fan 0
      = some (chain_len true built_fan 0, searched_fan) := by
  have hB := (built_of_load true lines_fan built_fan built_fan_load).1
  obtain ⟨st1, hc, _⟩ := flc_global true built_fan hB built_fan (pinv_built true _ hB) 0
    fan_in_range 256 (by unfold MAX_WORD_LEN; omega)
  have : searched_fan = st1 := by
    unfold searched_fan
    rw [hc]
    rfl
  rw [this]
  exact hc

theorem searched_fan_reachable : Reachable true built_fan searched_fan :=
  Reachable.call built_fan searched_fan 256 0 _ Reachable.built fan_in_range
    searched_fan_call

theorem fan_start_computed :
    0 < (searched_fan.g_dict.getD 0 zero_word).max_chain_length := by decide!

theorem fan_many_ties : MAX_NEXT_STEPS < (best_ids true built_fan 0).length := by decide!

theorem built_a_at_so_ta_load :
    load_and_preprocess_dictionary true lines_a_at_so_ta = some (some built_a_at_so_ta) :=
  load_tables_of true lines_a_at_so_ta (by decide)

/-! ## The candidate buffer -/

theorem write_two (c : Nat) (hc : c ≠ 0) : ∀ (l : List Nat) (k : Nat), (∀ b ∈ l, b ≠ 0) →
    buffer_string (((l ++ List.replicate (k + 2) 0).set l.length c).set (l.length + 1) 0)
      = l ++ [c]
  | [], k, _ => by
    simp [buffer_string, List.replicate_succ, List.takeWhile, hc]
  | a :: l, k, h => by
    have ha : a ≠ 0 := h a (by simp)
    have ih := write_two c hc l k (fun b hb => h b (by simp [hb]))
    simp only [buffer_string] at ih ⊢
    simp only [List.cons_append, List.length_cons, List.set_cons_succ, List.takeWhile_cons]
    rw [ih]
    simp [ha]

theorem copy_buffer_eq (canonical : List Nat) (h : canonical.length ≤ COPY_CAPACITY) :
    copy_buffer canonical
      = canonical ++ List.replicate (COPY_CAPACITY - canonical.length) 0 := by
  unfold copy_buffer
  apply List.take_of_length_le
  simp only [List.length_append, List.length_replicate]
  omega

theorem copy_buffer_length (canonical : List Nat) (h : canonical.length ≤ COPY_CAPACITY) :
    (copy_buffer canonical).length = COPY_CAPACITY := by
  rw [copy_buffer_eq canonical h]
  simp only [List.length_append, List.length_replicate]
  omega

/-- For a word shorter than `MAX_WORD_LEN` both indexed writes are inside the buffer and
leave the string that `write_candidate` describes. -/
theorem candidate_writes_ok (canonical : List Nat) (c : Nat)
    (hlen : canonical.length + 1 < COPY_CAPACITY) (hnz : ∀ b ∈ canonical, b ≠ 0)
    (hc : c ≠ 0) :
    ∃ buf, candidate_writes canonical canonical.length c = some buf ∧
      buffer_string buf = write_candidate canonical canonical.length c := by
  have hl := copy_buffer_length canonical (by omega)
  obtain ⟨k, hk⟩ : ∃ k, COPY_CAPACITY - canonical.length = k + 2 :=
    ⟨COPY_CAPACITY - canonical.length - 2, by omega⟩
  refine ⟨((copy_buffer canonical).set canonical.length c).set (canonical.length + 1) 0, ?_, ?_⟩
  · unfold candidate_writes indexed_write
    rw [if_pos (by omega)]
    simp only
    rw [if_pos (by rw [List.length_set]; omega)]
  · rw [copy_buffer_eq canonical (by omega), hk, write_two c hc canonical k hnz,
      write_candidate_eq]

/-- For a word of `MAX_WORD_LEN` characters the second indexed write is outside the
buffer. -/
theorem candidate_writes_overflow (canonical : List Nat) (c : Nat)
    (hlen : canonical.length = MAX_WORD_LEN) :
    candidate_writes canonical canonical.length c = none := by
  have hl := copy_buffer_length canonical (by unfold COPY_CAPACITY; omega)
  unfold candidate_writes indexed_write
  rw [if_pos (by rw [hl]; unfold COPY_CAPACITY; omega)]
  simp only
  rw [if_neg (by rw [List.length_set, hl]; unfold COPY_CAPACITY; omega)]

/-! ## The order of `strcmp` -/

theorem strcmp_self : ∀ (a : List Nat), strcmp a a = 0
  | [] => by simp [strcmp]
  | x :: l => by simp [strcmp, strcmp_self l]

theorem group_loop_map (call : State → Nat → Option (Nat × State))
    (hkeep : ∀ s v x, call s v = some x → x.2.g_map = s.g_map) (w wi : Nat) :
    ∀ (is : List Nat) (acc y : Nat × State), group_loop call w wi is acc = some y →
      y.2.g_map = acc.2.g_map
  | [], acc, y, hy => by
    simp only [group_loop, Option.some.injEq] at hy
    rw [hy]
  | i :: rest, (ml, st), y, hy => by
    unfold group_loop at hy
    rcases hc : call st (wi + i) with _ | ⟨r, st1⟩
    · rw [hc] at hy
      simp at hy
    · rw [hc] at hy
      simp only at hy
      rw [group_loop_map call hkeep w wi rest _ y hy]
      exact hkeep st (wi + i) (r, st1) hc

theorem char_loop_map (sc : Bool) (call : State → Nat → Option (Nat × State))
    (hkeep : ∀ s v x, call s v = some x → x.2.g_map = s.g_map) (w : Nat) (can : List Nat)
    (len : Nat) :
    ∀ (cs : List Nat) (acc y : Nat × State), char_loop sc call w can len cs acc = some y →
      y.2.g_map = acc.2.g_map
  | [], acc, y, hy => by
    simp only [char_loop, Option.some.injEq] at hy
    rw [hy]
  | c :: rest, (ml, st), y, hy => by
    unfold char_loop at hy
    simp only at hy
    rcases hf : find_group sc st.g_map (canonicalize sc (write_candidate can len c))
      with _ | _ | g
    · rw [hf] at hy
      simp at hy
    · rw [hf] at hy
      simp only at hy
      exact char_loop_map sc call hkeep w can len rest _ y hy
    · rw [hf] at hy
      simp only at hy
      rcases hg : group_loop call w g.word_index (List.range g.group_size) (ml, st) with _ | acc1
      · rw [hg] at hy
        simp at hy
      · rw [hg] at hy
        simp only at hy
        rw [char_loop_map sc call hkeep w can len rest _ y hy]
        exact group_loop_map call hkeep w g.word_index _ _ _ hg

/-- A call of `find_longest_chain` never writes the index. -/
theorem flc_map (sc : Bool) : ∀ (fuel : Nat) (st : State) (w : Nat) (x : Nat × State),
    find_longest_chain sc fuel st w = some x → x.2.g_map = st.g_map
  | 0, st, w, x, h => by simp [find_longest_chain] at h
  | fuel + 1, st, w, x, h => by
    rw [flc_succ] at h
    by_cases hm : 0 < (st.g_dict.getD w zero_word).max_chain_length
    · rw [if_pos hm] at h
      simp only [Option.some.injEq] at h
      rw [← h]
    · rw [if_neg hm] at h
      rcases hc : char_loop sc (find_longest_chain sc fuel) w
          (st.g_dict.getD w zero_word).canonical (st.g_dict.getD w zero_word).length
          candidate_chars
          (1, ⟨st.g_map, st.g_dict.set w
            { st.g_dict.getD w zero_word with num_next_steps := 0 }⟩) with _ | y
      · rw [hc] at h
        simp at h
      · rw [hc] at h
        simp only [Option.some.injEq] at h
        rw [← h]
        exact char_loop_map sc _ (flc_map sc fuel) w _ _ _ _ _ hc

theorem group_loop_congr (call1 call2 : State → Nat → Option (Nat × State)) (w wi : Nat) :
    ∀ (is : List Nat) (acc : Nat × State),
      (∀ s i, i ∈ is → call1 s (wi + i) = call2 s (wi + i)) →
      group_loop call1 w wi is acc = group_loop call2 w wi is acc
  | [], _, _ => rfl
  | i :: rest, (ml, st), h => by
    unfold group_loop
    rw [h st i (by simp)]
    rcases hc : call2 st (wi + i) with _ | ⟨r, st1⟩
    · rfl
    · simp only
      exact group_loop_congr call1 call2 w wi rest _ (fun s j hj => h s j (by simp [hj]))

/-- The outer loop asks its recursive call only about the ids of `visited_ids`: two
calls that agree on them give the same result. -/
theorem char_loop_congr (sc : Bool) (call1 call2 : State → Nat → Option (Nat × State))
    (hkeep : ∀ s v x, call2 s v = some x → x.2.g_map = s.g_map) (w : Nat) (can : List Nat)
    (len : Nat) (m : GMap) :
    ∀ (cs : List Nat) (acc : Nat × State), acc.2.g_map = m →
      (∀ s v, v ∈ visited_ids sc m can len cs → call1 s v = call2 s v) →
      char_loop sc call1 w can len cs acc = char_loop sc call2 w can len cs acc
  | [], _, _, _ => rfl
  | c :: rest, (ml, st), hm, h => by
    simp only at hm
    unfold char_loop
    simp only
    rw [visited_ids_cons] at h
    rcases hf : find_group sc st.g_map (canonicalize sc (write_candidate can len c))
      with _ | _ | g
    · rfl
    · simp only
      exact char_loop_congr sc call1 call2 hkeep w can len m rest _ hm
        (fun s v hv => h s v (List.mem_append_right _ hv))
    · simp only
      rw [hm] at hf
      rw [hf] at h
      simp only at h
      rw [group_loop_congr call1 call2 w g.word_index (List.range g.group_size) (ml, st)
        (fun s i hi => h s _ (List.mem_append_left _
          (List.mem_map.mpr ⟨i, hi, rfl⟩)))]
      rcases hg : group_loop call2 w g.word_index (List.range g.group_size) (ml, st)
        with _ | acc1
      · rfl
      · simp only
        have hm1 := group_loop_map call2 hkeep w g.word_index _ _ _ hg
        exact char_loop_congr sc call1 call2 hkeep w can len m rest acc1
          (by rw [hm1]; exact hm)
          (fun s v hv => h s v (List.mem_append_right _ hv))

/-- On built tables, in a reachable state, the two loops of `find_longest_chain(w)` ask
the recursive call only about the ids of `search_ids`. -/
theorem flc_recursion_ids (sc : Bool) (D : State) (hB : BuiltOK sc D) (st : State)
    (hreach : Reachable sc D st) (w : Nat) (hw : w < D.g_dict.length) (fuel : Nat)
    (call : State → Nat → Option (Nat × State))
    (h : ∀ s v, v ∈ search_ids sc D w → call s v = find_longest_chain sc fuel s v)
    (acc : Nat × State) (hacc : acc.2.g_map = st.g_map) :
    char_loop sc call w (st.g_dict.getD w zero_word).canonical
        (st.g_dict.getD w zero_word).length candidate_chars acc
      = char_loop sc (find_longest_chain sc fuel) w (st.g_dict.getD w zero_word).canonical
        (st.g_dict.getD w zero_word).length candidate_chars acc := by
  have hinv := reachable_inv sc D hB st hreach
  have hstat := hinv.static w hw
  apply char_loop_congr sc call _ (flc_map sc fuel) w _ _ D.g_map candidate_chars acc
    (by rw [hacc, hinv.map])
  intro s v hv
  apply h s v
  unfold search_ids
  rw [← hstat.2.1, ← hstat.2.2.2]
  exact hv

/-! ## The claims, continued -/

/-- C11: in every state reached by completed searches on built tables, an entry `w`
with `max_chain_length[w] = k > 1` has `num_next_steps[w] >= 1`, and every id among the
first `num_next_steps[w]` cells of `next_in_chain[w]` has `max_chain_length = k - 1`. -/
theorem C11_next_steps_one_shorter (sc : Bool) (lines : List (List Nat)) (D : State)
    (hload : load_and_preprocess_dictionary sc lines = some (some D)) (st : State)
    (hreach : Reachable sc D st) (w : Nat) (hw : w < D.g_dict.length) (k : Nat)
    (hk : (st.g_dict.getD w zero_word).max_chain_length = k) (h1 : 1 < k) :
    1 ≤ (st.g_dict.getD w zero_word).num_next_steps ∧
    ∀ i, i < (st.g_dict.getD w zero_word).num_next_steps →
      (st.g_dict.getD ((st.g_dict.getD w zero_word).next_in_chain.getD i 0)
        zero_word).max_chain_length = k - 1 := by
  have hB := (built_of_load sc lines D hload).1
  have hinv := reachable_inv sc D hB st hreach
  refine ⟨steps_pos_of_long sc D hB st hinv w hw (by omega), ?_⟩
  intro i hi
  have := (stored_step sc D hB st hinv w hw (by omega) i hi).2.2
  omega

/-- Witness of C11: the tables of "a", "at" after the search from "a". -/
theorem C11_next_steps_one_shorter_witness :
    1 ≤ (searched_a_at.g_dict.getD 0 zero_word).num_next_steps ∧
    ∀ i, i < (searched_a_at.g_dict.getD 0 zero_word).num_next_steps →
      (searched_a_at.g_dict.getD ((searched_a_at.g_dict.getD 0 zero_word).next_in_chain.getD i 0)
        zero_word).max_chain_length = 2 - 1 :=
  C11_next_steps_one_shorter true lines_a_at built_a_at built_a_at_load searched_a_at
    searched_a_at_reachable 0 (by decide) 2 (by decide) (by decide)

/-- The fan-out cap on the successors the search visits: in every state reached by
completed searches on built tables no entry has `num_next_steps` above
`MAX_NEXT_STEPS`; a computed entry `w` with more than `MAX_NEXT_STEPS` tied best
successors among the visited ones has `num_next_steps[w] = MAX_NEXT_STEPS`, the loop
of `print_all_chains` at `w` runs over exactly `MAX_NEXT_STEPS` ids, and
`print_all_chains(w)` returns. -/
theorem visited_fan_out_cap (sc : Bool) (lines : List (List Nat)) (D : State)
    (hload : load_and_preprocess_dictionary sc lines = some (some D)) (st : State)
    (hreach : Reachable sc D st) :
    (∀ e ∈ st.g_dict, e.num_next_steps ≤ MAX_NEXT_STEPS) ∧
    ∀ w, w < D.g_dict.length → 0 < (st.g_dict.getD w zero_word).max_chain_length →
      MAX_NEXT_STEPS < (best_ids sc D w).length →
      (st.g_dict.getD w zero_word).num_next_steps = MAX_NEXT_STEPS ∧
      (branch_ids st.g_dict w).length = MAX_NEXT_STEPS ∧
      (∀ fuel path, print_all_chains st.g_dict (fuel + 1) w path
        = print_loop (fun v => print_all_chains st.g_dict fuel v
            (path ++ [(st.g_dict.getD w zero_word).word])) (branch_ids st.g_dict w)) ∧
      ∃ outs, print_all_chains st.g_dict (st.g_dict.getD w zero_word).max_chain_length w []
        = some outs ∧ outs ≠ [] := by
  have hB := (built_of_load sc lines D hload).1
  have hinv := reachable_inv sc D hB st hreach
  refine ⟨reachable_steps sc D hB st hreach, ?_⟩
  intro w hw hpos hmany
  have hsteps : (st.g_dict.getD w zero_word).num_next_steps = MAX_NEXT_STEPS := by
    rw [(hinv.ok w hw (Nat.zero_le _) hpos).steps]
    omega
  refine ⟨hsteps, ?_, ?_, ?_⟩
  · unfold branch_ids
    rw [List.length_map, List.length_range, hsteps]
  · intro fuel path
    rw [pac_succ, if_neg]
    · rfl
    · rw [hsteps]
      unfold MAX_NEXT_STEPS
      omega
  · obtain ⟨outs, hp, hne, _⟩ := print_ok sc D hB st hinv _ w [] hw hpos (le_refl _)
    exact ⟨outs, hp, hne⟩

/-- The cap at work: "a" with 101 copies of "at", after the search from "a". -/
theorem visited_fan_out_cap_fan :
    (searched_fan.g_dict.getD 0 zero_word).num_next_steps = MAX_NEXT_STEPS ∧
    (branch_ids searched_fan.g_dict 0).length = MAX_NEXT_STEPS :=
  ⟨((visited_fan_out_cap true lines_fan built_fan built_fan_load searched_fan
      searched_fan_reachable).2 0 fan_in_range fan_start_computed fan_many_ties).1,
    ((visited_fan_out_cap true lines_fan built_fan built_fan_load searched_fan
      searched_fan_reachable).2 0 fan_in_range fan_start_computed fan_many_ties).2.1⟩

/-- C12, evaluated on the word list "a", "at", "so", "ta" after `find_longest_chain(0)`:
entry 0 ("a") has chain length 2 and stores the single next step 1 ("at"), although
its successors are the entries 1 ("at") and 3 ("ta") and `find_longest_chain` returns
1 for both, so both are tied best successors. -/
theorem C12_stored_steps_miss_successor :
    (searched_a_at_so_ta.g_dict.getD 0 zero_word).max_chain_length = 2 ∧
    (searched_a_at_so_ta.g_dict.getD 0 zero_word).num_next_steps = 1 ∧
    (searched_a_at_so_ta.g_dict.getD 0 zero_word).next_in_chain.take 1 = [1] ∧
    all_successors true built_a_at_so_ta 0 = [1, 3] ∧
    (find_longest_chain true 256 searched_a_at_so_ta 1).map (fun r => r.1) = some 1 ∧
    (find_longest_chain true 256 searched_a_at_so_ta 3).map (fun r => r.1) = some 1 := by
  decide

/-- C13 as stated fails: for "a", "at", "ate", "ant", "tea" and start "a" the printed
chains are not exactly the two sequences a, at, ate and a, at, tea. -/
theorem C13_two_chains_counterexample :
    ¬ ∃ paths, (main true 256 lines_spec_example [97]).map (fun r => r.1)
        = some (Outcome.chains 3 paths) ∧
      ∀ p, p ∈ paths ↔
        (p = [[97], [97, 116], [97, 116, 101]] ∨ p = [[97], [97, 116], [116, 101, 97]]) := by
  rintro ⟨paths, hmain, hp⟩
  have hval : (main true 256 lines_spec_example [97]).map (fun r => r.1)
      = some (Outcome.chains 3 [[[97], [97, 116], [97, 116, 101]],
        [[97], [97, 116], [116, 101, 97]], [[97], [97, 116], [97, 110, 116]]]) := by
    decide
  rw [hval] at hmain
  have heq := Outcome.chains.inj (Option.some.inj hmain)
  have hmem : [[97], [97, 116], [97, 110, 116]] ∈ paths := by
    rw [← heq.2]
    simp
  have := (hp _).mp hmem
  revert this
  decide

/-- C13 amended: for "a", "at", "ate", "ant", "tea" and start "a" the program reports
maximum chain length 3 and prints exactly three chains, in this order: a, at, ate;
a, at, tea; a, at, ant. -/
theorem C13_three_chains (sc : Bool) :
    (main sc 256 lines_spec_example [97]).map (fun r => r.1)
      = some (Outcome.chains 3 [[[97], [97, 116], [97, 116, 101]],
        [[97], [97, 116], [116, 101, 97]], [[97], [97, 116], [97, 110, 116]]]) := by
  cases sc <;> decide

/-- C14, evaluated on the word list "b", "a": after the load the table holds "a" with
`id` 1 at index 0 and "b" with `id` 0 at index 1. -/
theorem C14_id_keeps_load_order :
    built_b_a.g_dict.map (fun e => e.word) = [[97], [98]] ∧
    built_b_a.g_dict.map (fun e => e.id) = [1, 0] := by
  decide

/-- C15, evaluated on the word list "a", "at", "so" and 101 copies of "ta" after
`find_longest_chain(0)`: entry 0 ("a") has chain length 2 and 102 successors in the
table, `find_longest_chain` returns 1 for every one of them, so all 102 are tied best
successors; yet `num_next_steps[0]` is 1, not `MAX_NEXT_STEPS`, and the loop of
`print_all_chains` at entry 0 runs over the single id 1. -/
theorem C15_split_group_below_cap :
    (searched_split_fan.g_dict.getD 0 zero_word).max_chain_length = 2 ∧
    (all_successors true built_split_fan 0).length = 102 ∧
    (∀ v ∈ all_successors true built_split_fan 0,
      (find_longest_chain true 256 searched_split_fan v).map (fun r => r.1) = some 1) ∧
    (searched_split_fan.g_dict.getD 0 zero_word).num_next_steps = 1 ∧
    branch_ids searched_split_fan.g_dict 0 = [1] := by
  decide!

/-- C20, evaluated on a word of 255 letters "a": the loader's filter accepts it, its
entry has `length = MAX_WORD_LEN`, the write at index `current_len` is inside the
buffer of capacity `MAX_WORD_LEN + 1`, and the write at index `current_len + 1` is
outside of it. -/
theorem C20_second_write_out_of_range :
    ¬ (word_255.length = 0 ∨ MAX_WORD_LEN < word_255.length) ∧
    (new_entry true 0 word_255).length = MAX_WORD_LEN ∧
    (indexed_write (copy_buffer (new_entry true 0 word_255).canonical)
      (new_entry true 0 word_255).length 33).isSome = true ∧
    candidate_writes (new_entry true 0 word_255).canonical
      (new_entry true 0 word_255).length 33 = none ∧
    ¬ ((new_entry true 0 word_255).length + 1 < COPY_CAPACITY) := by
  decide!

end AnagramSolver
